import Mathlib

/-!
Verification of the Shadow VM driver (`core/lib/multivm/src/versions/shadow.rs`).

The development shallowly embeds the Rust source:

* Opaque payloads carried around but never inspected by the driver
  (transactions, block environments, events, L2-to-L1 logs, refunds, bytes)
  are modelled as `Nat` or `List Nat`; the driver only clones and compares
  them for equality, which the model preserves.
* `BTreeMap<StorageKey, _>` is modelled as an association list kept sorted by
  key, so that list equality coincides with `BTreeMap` equality and the list
  order coincides with `BTreeMap` iteration order.
* The `RefCell` holding the shadow slot is modelled with an explicit dynamic
  borrow state, since the divergence branch of the read-only query methods
  runs `RefCell::take` while the `Ref` obtained by the enclosing
  `if let Some(shadow) = &*self.shadow.borrow()` is still live.
* Driver operations are embedded as a step function over the driver state
  which also returns the operation's observable trace: dump updates, the
  calls forwarded to each engine, comparator runs, emitted dumps, and
  whether the operation panicked.
-/

/-! ## Storage logs (`zksync_types::StorageLog` and friends) -/

/-- `StorageLog`: storage keys and values are opaque to the driver and modelled
as `Nat`; `is_write` is the result of `StorageLog::is_write()` on the log's
kind. -/
structure StorageLog where
  key : Nat
  value : Nat
  is_write : Bool
deriving DecidableEq

/-- `StorageLogWithPreviousValue`. -/
structure StorageLogWithPreviousValue where
  log : StorageLog
  previous_value : Nat
deriving DecidableEq

/-! ## `BTreeMap<Nat, α>` as a sorted association list -/

/-- `BTreeMap::get`: first (and, for a sorted unique-key list, only) binding of
`k`. -/
def lookupKey {α : Type} (k : Nat) : List (Nat × α) → Option α
  | [] => none
  | (k', v) :: rest => if k = k' then some v else lookupKey k rest

/-- `BTreeMap::contains_key`. -/
def containsKey {α : Type} (k : Nat) (m : List (Nat × α)) : Bool :=
  (lookupKey k m).isSome

/-- `BTreeMap::insert`: overwrites an existing binding, keeping keys sorted. -/
def insertSorted {α : Type} (k : Nat) (v : α) : List (Nat × α) → List (Nat × α)
  | [] => [(k, v)]
  | (k', v') :: rest =>
    if k < k' then (k, v) :: (k', v') :: rest
    else if k = k' then (k, v) :: rest
    else (k', v') :: insertSorted k v rest

/-- The keys of an association list, in order. -/
def keysOf {α : Type} (m : List (Nat × α)) : List Nat :=
  m.map Prod.fst

/-! ## `UniqueStorageLogs` (the log normalizer) -/

/-- `existing_log.log.value = log.log.value`: replace the stored value for key
`k` in place, touching nothing else. -/
def updateValue (k newValue : Nat) :
    List (Nat × StorageLogWithPreviousValue) → List (Nat × StorageLogWithPreviousValue)
  | [] => []
  | (k', e) :: rest =>
    if k = k' then (k', { e with log := { e.log with value := newValue } }) :: rest
    else (k', e) :: updateValue k newValue rest

/-- One iteration of the loop in `UniqueStorageLogs::new`: skip non-writes,
update the value of an already-seen key, insert an unseen key verbatim. -/
def uslStep (m : List (Nat × StorageLogWithPreviousValue))
    (log : StorageLogWithPreviousValue) : List (Nat × StorageLogWithPreviousValue) :=
  if log.log.is_write = false then m
  else if containsKey log.log.key m then updateValue log.log.key log.log.value m
  else insertSorted log.log.key log m

/-- `UniqueStorageLogs::new`: fold the logs into a map, then
`retain(|_, log| log.previous_value != log.log.value)`. -/
def UniqueStorageLogs.new (logs : List StorageLogWithPreviousValue) :
    List (Nat × StorageLogWithPreviousValue) :=
  (logs.foldl uslStep []).filter fun kv => kv.2.previous_value ≠ kv.2.log.value

/-! ## `DivergenceErrors::gather_logs` -/

/-- One iteration of the `collect` in `gather_logs`: keep only write logs,
keyed by `log.key`; a later binding for the same key overwrites an earlier
one. -/
def gatherStep (m : List (Nat × StorageLog)) (log : StorageLog) : List (Nat × StorageLog) :=
  if log.is_write then insertSorted log.key log m else m

/-- `DivergenceErrors::gather_logs`. -/
def DivergenceErrors.gather_logs (logs : List StorageLog) : List (Nat × StorageLog) :=
  logs.foldl gatherStep []

/-! ## Helper views of the input log sequence -/

/-- The subsequence of write entries for key `k`, in input order. -/
def writesFor (k : Nat) (logs : List StorageLogWithPreviousValue) :
    List StorageLogWithPreviousValue :=
  logs.filter fun l => l.log.is_write && l.log.key == k

/-- Replace an entry's value (the shape the normalizer's updates produce). -/
def setVal (e : StorageLogWithPreviousValue) (v : Nat) : StorageLogWithPreviousValue :=
  { e with log := { e.log with value := v } }

/-- What the normalizer's fold holds for one key after consuming a list of
write entries for that key, starting from `acc`. -/
def coalesceFrom (acc : Option StorageLogWithPreviousValue) :
    List StorageLogWithPreviousValue → Option StorageLogWithPreviousValue
  | [] => acc
  | w :: ws =>
    match acc with
    | none => coalesceFrom (some w) ws
    | some e => coalesceFrom (some (setVal e w.log.value)) ws

example :
    UniqueStorageLogs.new
      [⟨⟨1, 7, true⟩, 5⟩, ⟨⟨1, 9, true⟩, 7⟩] = [(1, ⟨⟨1, 9, true⟩, 5⟩)] := by decide

example :
    UniqueStorageLogs.new
      [⟨⟨1, 7, true⟩, 5⟩, ⟨⟨1, 5, true⟩, 7⟩] = [] := by decide

example :
    UniqueStorageLogs.new
      [⟨⟨2, 4, false⟩, 3⟩, ⟨⟨1, 7, true⟩, 7⟩] = [] := by decide

/-! ## Lookup lemmas for the sorted association list -/

theorem lookupKey_insertSorted_self {α : Type} (k : Nat) (v : α) (m : List (Nat × α)) :
    lookupKey k (insertSorted k v m) = some v := by
  induction m with
  | nil => simp [insertSorted, lookupKey]
  | cons hd tl ih =>
    obtain ⟨k', v'⟩ := hd
    by_cases h1 : k < k'
    · simp [insertSorted, h1, lookupKey]
    · by_cases h2 : k = k'
      · simp [insertSorted, h1, h2, lookupKey]
      · simp [insertSorted, h1, h2, lookupKey, ih]

theorem lookupKey_insertSorted_ne {α : Type} {j k : Nat} (h : j ≠ k) (v : α)
    (m : List (Nat × α)) : lookupKey j (insertSorted k v m) = lookupKey j m := by
  induction m with
  | nil => simp [insertSorted, lookupKey, h]
  | cons hd tl ih =>
    obtain ⟨k', v'⟩ := hd
    by_cases h1 : k < k'
    · simp [insertSorted, h1, lookupKey, h]
    · by_cases h2 : k = k'
      · subst h2
        simp [insertSorted, h1, lookupKey, h]
      · simp [insertSorted, h1, h2, lookupKey, ih]

theorem lookupKey_updateValue_self (k nv : Nat)
    (m : List (Nat × StorageLogWithPreviousValue)) :
    lookupKey k (updateValue k nv m) = (lookupKey k m).map fun e => setVal e nv := by
  induction m with
  | nil => simp [updateValue, lookupKey]
  | cons hd tl ih =>
    obtain ⟨k', v'⟩ := hd
    by_cases h : k = k'
    · simp [updateValue, h, lookupKey, setVal]
    · simp [updateValue, h, lookupKey, ih]

theorem lookupKey_updateValue_ne {j k : Nat} (h : j ≠ k) (nv : Nat)
    (m : List (Nat × StorageLogWithPreviousValue)) :
    lookupKey j (updateValue k nv m) = lookupKey j m := by
  induction m with
  | nil => simp [updateValue]
  | cons hd tl ih =>
    obtain ⟨k', v'⟩ := hd
    by_cases h1 : k = k'
    · subst h1
      simp [updateValue, lookupKey, h, ih]
    · by_cases h2 : j = k'
      · simp [updateValue, h1, lookupKey, h2]
      · simp [updateValue, h1, lookupKey, h2, ih]

theorem lookupKey_eq_none_iff {α : Type} (k : Nat) (m : List (Nat × α)) :
    lookupKey k m = none ↔ k ∉ keysOf m := by
  induction m with
  | nil => simp [lookupKey, keysOf]
  | cons hd tl ih =>
    obtain ⟨k', v'⟩ := hd
    by_cases h : k = k'
    · simp [lookupKey, keysOf, h]
    · simp [lookupKey, keysOf, h, ih]

/-! ## The per-key content of the normalizer's fold -/

theorem writesFor_cons (k : Nat) (l : StorageLogWithPreviousValue)
    (rest : List StorageLogWithPreviousValue) :
    writesFor k (l :: rest)
      = if l.log.is_write && l.log.key == k then l :: writesFor k rest
        else writesFor k rest := by
  simp only [writesFor, List.filter_cons]

theorem lookupKey_foldl_uslStep (k : Nat) (logs : List StorageLogWithPreviousValue)
    (m : List (Nat × StorageLogWithPreviousValue)) :
    lookupKey k (logs.foldl uslStep m) = coalesceFrom (lookupKey k m) (writesFor k logs) := by
  induction logs generalizing m with
  | nil => simp [writesFor, coalesceFrom]
  | cons l rest ih =>
    rw [List.foldl_cons, writesFor_cons]
    by_cases hw : l.log.is_write = false
    · simp [uslStep, hw, ih]
    · rw [Bool.not_eq_false] at hw
      have hstep : uslStep m l
          = if containsKey l.log.key m then updateValue l.log.key l.log.value m
            else insertSorted l.log.key l m := by
        simp [uslStep, hw]
      by_cases hk : l.log.key = k
      · subst hk
        rw [if_pos (by simp [hw])]
        by_cases hc : containsKey l.log.key m
        · rcases he : lookupKey l.log.key m with _ | e
          · exact absurd hc (by simp [containsKey, he])
          · rw [hstep, if_pos hc, ih, lookupKey_updateValue_self, he]
            simp [coalesceFrom]
        · have he : lookupKey l.log.key m = none := by
            rcases he : lookupKey l.log.key m with _ | e
            · rfl
            · exact absurd hc (by simp [containsKey, he])
          rw [hstep, if_neg hc, ih, lookupKey_insertSorted_self, he]
          simp [coalesceFrom]
      · have hk' : k ≠ l.log.key := fun h => hk h.symm
        rw [if_neg (by simp [hk])]
        by_cases hc : containsKey l.log.key m
        · rw [hstep, if_pos hc, ih, lookupKey_updateValue_ne hk']
        · rw [hstep, if_neg hc, ih, lookupKey_insertSorted_ne hk']

theorem setVal_setVal (e : StorageLogWithPreviousValue) (v v' : Nat) :
    setVal (setVal e v) v' = setVal e v' := rfl

theorem setVal_value (e : StorageLogWithPreviousValue) (v : Nat) :
    (setVal e v).log.value = v := rfl

theorem setVal_self (e : StorageLogWithPreviousValue) : setVal e e.log.value = e := rfl

theorem coalesceFrom_some (e : StorageLogWithPreviousValue)
    (ws : List StorageLogWithPreviousValue) :
    coalesceFrom (some e) ws = some (setVal e ((ws.getLast?.getD e).log.value)) := by
  induction ws generalizing e with
  | nil => simp [coalesceFrom, setVal_self]
  | cons w ws ih =>
    show coalesceFrom (some (setVal e w.log.value)) ws = _
    rw [ih, List.getLast?_cons]
    cases hws : ws.getLast? with
    | none => simp [hws, setVal_setVal, setVal_value]
    | some u => simp [hws, setVal_setVal, setVal_value]

/-! ## Key uniqueness of the normalizer's fold -/

theorem keysOf_updateValue (k nv : Nat) (m : List (Nat × StorageLogWithPreviousValue)) :
    keysOf (updateValue k nv m) = keysOf m := by
  induction m with
  | nil => rfl
  | cons hd tl ih =>
    obtain ⟨k', v'⟩ := hd
    by_cases h : k = k'
    · simp [updateValue, h, keysOf]
    · simp [updateValue, h, keysOf] at ih ⊢
      exact ih

theorem mem_keysOf_insertSorted {α : Type} {j k : Nat} {v : α} {m : List (Nat × α)}
    (h : j ∈ keysOf (insertSorted k v m)) : j = k ∨ j ∈ keysOf m := by
  induction m with
  | nil => simpa [insertSorted, keysOf] using h
  | cons hd tl ih =>
    obtain ⟨k', v'⟩ := hd
    by_cases h1 : k < k'
    · simpa [insertSorted, h1, keysOf] using h
    · by_cases h2 : k = k'
      · simp only [insertSorted, if_neg h1, if_pos h2, keysOf, List.map_cons,
          List.mem_cons] at h ⊢
        tauto
      · simp only [insertSorted, if_neg h1, if_neg h2, keysOf, List.map_cons,
          List.mem_cons] at h ⊢
        rcases h with h | h
        · tauto
        · rcases ih h with h' | h' <;> tauto

theorem nodup_keysOf_insertSorted {α : Type} {k : Nat} {v : α}
    {m : List (Nat × α)} (hfresh : lookupKey k m = none)
    (hm : (keysOf m).Nodup) : (keysOf (insertSorted k v m)).Nodup := by
  induction m with
  | nil => simp [insertSorted, keysOf]
  | cons hd tl ih =>
    obtain ⟨k', v'⟩ := hd
    have hk : ¬k = k' := by
      intro h
      simp [lookupKey, h] at hfresh
    have hfresh' : lookupKey k tl = none := by
      simpa [lookupKey, hk] using hfresh
    simp only [keysOf, List.map_cons, List.nodup_cons] at hm
    by_cases h1 : k < k'
    · simp only [insertSorted, if_pos h1, keysOf, List.map_cons, List.nodup_cons,
        List.mem_cons]
      refine ⟨?_, hm.1, hm.2⟩
      rw [lookupKey_eq_none_iff] at hfresh'
      push_neg
      exact ⟨hk, fun hmem => hfresh' hmem⟩
    · by_cases h2 : k = k'
      · exact absurd h2 hk
      · simp only [insertSorted, if_neg h1, if_neg h2, keysOf, List.map_cons,
          List.nodup_cons]
        refine ⟨?_, ih hfresh' hm.2⟩
        intro hmem
        rcases mem_keysOf_insertSorted hmem with h | h
        · exact hk h.symm
        · exact hm.1 h

theorem nodup_keysOf_foldl_uslStep (logs : List StorageLogWithPreviousValue)
    (m : List (Nat × StorageLogWithPreviousValue)) (hm : (keysOf m).Nodup) :
    (keysOf (logs.foldl uslStep m)).Nodup := by
  induction logs generalizing m with
  | nil => exact hm
  | cons l rest ih =>
    rw [List.foldl_cons]
    refine ih _ ?_
    unfold uslStep
    split
    · exact hm
    · split
      · rw [keysOf_updateValue]
        exact hm
      · refine nodup_keysOf_insertSorted ?_ hm
        rename_i hc
        rcases he : lookupKey l.log.key m with _ | e
        · rfl
        · exact absurd (by simp [containsKey, he]) hc

theorem lookupKey_filter {α : Type} (q : Nat × α → Bool) (k : Nat)
    (m : List (Nat × α)) (hm : (keysOf m).Nodup) :
    lookupKey k (m.filter q)
      = (lookupKey k m).bind fun v => if q (k, v) then some v else none := by
  induction m with
  | nil => simp [lookupKey]
  | cons hd tl ih =>
    obtain ⟨k', v'⟩ := hd
    simp only [keysOf, List.map_cons, List.nodup_cons] at hm
    by_cases hk : k = k'
    · subst hk
      cases hp : q (k, v')
      · have hnone : lookupKey k tl = none := by
          rw [lookupKey_eq_none_iff]
          exact hm.1
        rw [List.filter_cons_of_neg (by simp [hp]), ih hm.2, hnone]
        simp [lookupKey, hp]
      · rw [List.filter_cons_of_pos (by simp [hp])]
        simp [lookupKey, hp]
    · cases hp : q (k', v')
      · rw [List.filter_cons_of_neg (by simp [hp]), ih hm.2]
        simp [lookupKey, hk]
      · rw [List.filter_cons_of_pos (by simp [hp])]
        simp only [lookupKey, if_neg hk]
        exact ih hm.2

/-- The normalized map at key `k`, expressed through the write entries for `k`:
coalesce them, then apply the no-op `retain` filter. -/
theorem lookupKey_UniqueStorageLogs (k : Nat) (logs : List StorageLogWithPreviousValue) :
    lookupKey k (UniqueStorageLogs.new logs)
      = (coalesceFrom none (writesFor k logs)).bind
          fun e => if e.previous_value ≠ e.log.value then some e else none := by
  unfold UniqueStorageLogs.new
  rw [lookupKey_filter _ _ _ (nodup_keysOf_foldl_uslStep _ _ (by simp [keysOf]))]
  rw [lookupKey_foldl_uslStep]
  simp [lookupKey]

/-! ## Claims C6 and C7: coalescence and no-op erasure -/

/-- C6 (counterexample). Take two write entries for key `1`: first
`prev 5 -> value 7`, then `prev 7 -> value 5`. The claim asserts the
normalized mapping contains a single entry for key `1` (with value `5` and
previous value `5`); the code's `retain` pass deletes the coalesced entry
because its previous value equals its value, so the mapping is empty. -/
theorem key_coalescence_cex :
    (writesFor 1 [⟨⟨1, 7, true⟩, 5⟩, ⟨⟨1, 5, true⟩, 7⟩]).length = 2
    ∧ UniqueStorageLogs.new [⟨⟨1, 7, true⟩, 5⟩, ⟨⟨1, 5, true⟩, 7⟩] = [] := by
  decide

/-- C6 (amended). If a key `k` has two or more write entries then the
normalized mapping holds, at `k`, the first write entry with its value
replaced by the last write's value — unless the first write's
`previous_value` equals the last write's value, in which case the entry is
erased as a no-op and `k` is absent from the mapping. -/
theorem key_coalescence (logs : List StorageLogWithPreviousValue) (k : Nat)
    (w₁ w₂ : StorageLogWithPreviousValue) (ws : List StorageLogWithPreviousValue)
    (h : writesFor k logs = w₁ :: w₂ :: ws) :
    lookupKey k (UniqueStorageLogs.new logs)
      = if w₁.previous_value = ((ws.getLastD w₂).log.value) then none
        else some (setVal w₁ ((ws.getLastD w₂).log.value)) := by
  rw [lookupKey_UniqueStorageLogs, h]
  show (coalesceFrom (some w₁) (w₂ :: ws)).bind _ = _
  rw [coalesceFrom_some, List.getLast?_cons]
  have hlast : (w₂ :: ws).getLast?.getD w₁ = ws.getLastD w₂ := by
    rw [List.getLast?_cons]
    cases hws : ws.getLast? with
    | none =>
      cases ws with
      | nil => simp
      | cons a l => simp at hws
    | some u =>
      simp only [Option.getD_some]
      cases ws with
      | nil => simp at hws
      | cons a l =>
        rw [List.getLastD_eq_getLast?, hws]
        rfl
  rw [List.getLast?_cons] at hlast
  rw [hlast]
  by_cases hv : w₁.previous_value = (ws.getLastD w₂).log.value
  · simp [hv, setVal]
  · simp [hv, setVal]

/-- C6 (witness for the amended theorem): two writes to key `1`,
`prev 5 -> 7` then `prev 7 -> 9`; the normalized mapping holds
`prev 5 -> 9` at key `1`. -/
theorem key_coalescence_witness :
    lookupKey 1 (UniqueStorageLogs.new [⟨⟨1, 7, true⟩, 5⟩, ⟨⟨1, 9, true⟩, 7⟩])
      = if (⟨⟨1, 7, true⟩, 5⟩ : StorageLogWithPreviousValue).previous_value
          = (([] : List StorageLogWithPreviousValue).getLastD ⟨⟨1, 9, true⟩, 7⟩).log.value
        then none
        else some (setVal ⟨⟨1, 7, true⟩, 5⟩
          ((([] : List StorageLogWithPreviousValue).getLastD ⟨⟨1, 9, true⟩, 7⟩).log.value)) :=
  key_coalescence _ 1 _ _ [] (by decide)

theorem mem_insertSorted {α : Type} {kv : Nat × α} {k : Nat} {v : α}
    {m : List (Nat × α)} (h : kv ∈ insertSorted k v m) : kv = (k, v) ∨ kv ∈ m := by
  induction m with
  | nil => simpa [insertSorted] using h
  | cons hd tl ih =>
    obtain ⟨k', v'⟩ := hd
    by_cases h1 : k < k'
    · simpa [insertSorted, h1] using h
    · by_cases h2 : k = k'
      · simp only [insertSorted, if_neg h1, if_pos h2, List.mem_cons] at h
        tauto
      · simp only [insertSorted, if_neg h1, if_neg h2, List.mem_cons] at h
        rcases h with h | h
        · exact Or.inr (by rw [h]; exact List.mem_cons_self _ _)
        · rcases ih h with h' | h'
          · exact Or.inl h'
          · exact Or.inr (List.mem_cons_of_mem _ h')

theorem is_write_of_mem_updateValue {k nv : Nat}
    {m : List (Nat × StorageLogWithPreviousValue)}
    (hm : ∀ x ∈ m, x.2.log.is_write = true) :
    ∀ x ∈ updateValue k nv m, x.2.log.is_write = true := by
  induction m with
  | nil => simp [updateValue]
  | cons hd tl ih =>
    obtain ⟨k', e⟩ := hd
    intro x hx
    by_cases h : k = k'
    · simp only [updateValue, if_pos h, List.mem_cons] at hx
      rcases hx with hx | hx
      · subst hx
        exact hm (k', e) (by simp)
      · exact hm x (List.mem_cons_of_mem _ hx)
    · simp only [updateValue, if_neg h, List.mem_cons] at hx
      rcases hx with hx | hx
      · subst hx
        exact hm (k', e) (by simp)
      · exact ih (fun y hy => hm y (List.mem_cons_of_mem _ hy)) x hx

theorem is_write_of_mem_foldl_uslStep (logs : List StorageLogWithPreviousValue)
    (m : List (Nat × StorageLogWithPreviousValue))
    (hm : ∀ x ∈ m, x.2.log.is_write = true) :
    ∀ x ∈ logs.foldl uslStep m, x.2.log.is_write = true := by
  induction logs generalizing m with
  | nil => exact hm
  | cons l rest ih =>
    rw [List.foldl_cons]
    refine ih _ ?_
    unfold uslStep
    split
    · exact hm
    · rename_i hw
      rw [Bool.not_eq_false] at hw
      split
      · exact is_write_of_mem_updateValue hm
      · intro x hx
        rcases mem_insertSorted hx with h | h
        · rw [h]
          exact hw
        · exact hm x h

/-- C7. No entry of the normalized mapping is a no-op (`previous_value`
equal to `value`), and every entry of it has the `is_write` flag set: reads
are discarded by the fold and no-op writes by the `retain` pass. -/
theorem noop_erasure (logs : List StorageLogWithPreviousValue) (k : Nat)
    (e : StorageLogWithPreviousValue) (h : (k, e) ∈ UniqueStorageLogs.new logs) :
    e.previous_value ≠ e.log.value ∧ e.log.is_write = true := by
  unfold UniqueStorageLogs.new at h
  rw [List.mem_filter] at h
  refine ⟨by simpa using h.2, ?_⟩
  exact is_write_of_mem_foldl_uslStep logs [] (by simp) (k, e) h.1

/-- C7 (witness): the single write `prev 5 -> 7` at key `1` survives
normalization and indeed satisfies both conclusions. -/
theorem noop_erasure_witness :
    (⟨⟨1, 7, true⟩, 5⟩ : StorageLogWithPreviousValue).previous_value
        ≠ (⟨⟨1, 7, true⟩, 5⟩ : StorageLogWithPreviousValue).log.value
    ∧ (⟨⟨1, 7, true⟩, 5⟩ : StorageLogWithPreviousValue).log.is_write = true :=
  noop_erasure [⟨⟨1, 7, true⟩, 5⟩] 1 ⟨⟨1, 7, true⟩, 5⟩ (by decide)

/-! ## Sortedness invariants and idempotence of the normalizer (claim C8) -/

@[simp] theorem keysOf_nil {α : Type} : keysOf ([] : List (Nat × α)) = [] := rfl

@[simp] theorem keysOf_cons {α : Type} (k : Nat) (v : α) (m : List (Nat × α)) :
    keysOf ((k, v) :: m) = k :: keysOf m := rfl

theorem pairwise_keysOf_insertSorted {α : Type} {k : Nat} {v : α}
    {m : List (Nat × α)} (hm : (keysOf m).Pairwise (· < ·)) :
    (keysOf (insertSorted k v m)).Pairwise (· < ·) := by
  induction m with
  | nil => simp [insertSorted]
  | cons hd tl ih =>
    obtain ⟨k', v'⟩ := hd
    simp only [keysOf_cons, List.pairwise_cons] at hm
    by_cases h1 : k < k'
    · simp only [insertSorted, if_pos h1, keysOf_cons, List.pairwise_cons]
      refine ⟨?_, hm.1, hm.2⟩
      intro b hb
      rcases List.mem_cons.mp hb with rfl | hb
      · exact h1
      · exact lt_trans h1 (hm.1 b hb)
    · by_cases h2 : k = k'
      · subst h2
        simp only [insertSorted, if_neg h1, if_true, keysOf_cons, List.pairwise_cons]
        exact hm
      · simp only [insertSorted, if_neg h1, if_neg h2, keysOf_cons, List.pairwise_cons]
        refine ⟨?_, ih hm.2⟩
        intro b hb
        rcases mem_keysOf_insertSorted hb with rfl | hb
        · omega
        · exact hm.1 b hb

theorem pairwise_keysOf_foldl_uslStep (logs : List StorageLogWithPreviousValue)
    (m : List (Nat × StorageLogWithPreviousValue))
    (hm : (keysOf m).Pairwise (· < ·)) :
    (keysOf (logs.foldl uslStep m)).Pairwise (· < ·) := by
  induction logs generalizing m with
  | nil => exact hm
  | cons l rest ih =>
    rw [List.foldl_cons]
    refine ih _ ?_
    unfold uslStep
    split
    · exact hm
    · split
      · rw [keysOf_updateValue]
        exact hm
      · exact pairwise_keysOf_insertSorted hm

theorem keyfield_of_mem_updateValue {k nv : Nat}
    {m : List (Nat × StorageLogWithPreviousValue)}
    (hm : ∀ x ∈ m, x.2.log.key = x.1) :
    ∀ x ∈ updateValue k nv m, x.2.log.key = x.1 := by
  induction m with
  | nil => simp [updateValue]
  | cons hd tl ih =>
    obtain ⟨k', e⟩ := hd
    intro x hx
    by_cases h : k = k'
    · simp only [updateValue, if_pos h, List.mem_cons] at hx
      rcases hx with hx | hx
      · subst hx
        exact hm (k', e) (by simp)
      · exact hm x (List.mem_cons_of_mem _ hx)
    · simp only [updateValue, if_neg h, List.mem_cons] at hx
      rcases hx with hx | hx
      · subst hx
        exact hm (k', e) (by simp)
      · exact ih (fun y hy => hm y (List.mem_cons_of_mem _ hy)) x hx

theorem keyfield_of_mem_foldl_uslStep (logs : List StorageLogWithPreviousValue)
    (m : List (Nat × StorageLogWithPreviousValue))
    (hm : ∀ x ∈ m, x.2.log.key = x.1) :
    ∀ x ∈ logs.foldl uslStep m, x.2.log.key = x.1 := by
  induction logs generalizing m with
  | nil => exact hm
  | cons l rest ih =>
    rw [List.foldl_cons]
    refine ih _ ?_
    unfold uslStep
    split
    · exact hm
    · split
      · exact keyfield_of_mem_updateValue hm
      · intro x hx
        rcases mem_insertSorted hx with h | h
        · rw [h]
        · exact hm x h

theorem insertSorted_append_of_lt {α : Type} {k : Nat} (v : α)
    {m : List (Nat × α)} (h : ∀ j ∈ keysOf m, j < k) :
    insertSorted k v m = m ++ [(k, v)] := by
  induction m with
  | nil => simp [insertSorted]
  | cons hd tl ih =>
    obtain ⟨k', v'⟩ := hd
    have hk' : k' < k := h k' (by simp)
    simp only [insertSorted, List.cons_append]
    rw [if_neg (by omega), if_neg (by omega),
      ih fun j hj => h j (by simp; exact Or.inr hj)]

theorem foldl_uslStep_rebuild (l : List (Nat × StorageLogWithPreviousValue)) :
    ∀ acc : List (Nat × StorageLogWithPreviousValue),
      (keysOf (acc ++ l)).Pairwise (· < ·) →
      (∀ x ∈ l, x.2.log.is_write = true) →
      (∀ x ∈ l, x.2.log.key = x.1) →
      List.foldl uslStep acc (l.map Prod.snd) = acc ++ l := by
  induction l with
  | nil =>
    intro acc _ _ _
    simp
  | cons hd t ih =>
    obtain ⟨k, e⟩ := hd
    intro acc hsort hw hk
    rw [List.map_cons, List.foldl_cons]
    have hek : e.log.key = k := hk (k, e) (by simp)
    have hew : e.log.is_write = true := hw (k, e) (by simp)
    have hlt : ∀ j ∈ keysOf acc, j < k := by
      intro j hj
      have hkeys : keysOf (acc ++ (k, e) :: t) = keysOf acc ++ k :: keysOf t := by
        simp [keysOf]
      rw [hkeys] at hsort
      exact (List.pairwise_append.mp hsort).2.2 j hj k (by simp)
    have hnc : containsKey e.log.key acc = false := by
      rw [hek]
      rcases hc : lookupKey k acc with _ | u
      · simp [containsKey, hc]
      · exfalso
        have hmem : k ∈ keysOf acc := by
          by_contra hmem
          rw [← lookupKey_eq_none_iff] at hmem
          rw [hmem] at hc
          exact Option.noConfusion hc
        exact lt_irrefl k (hlt k hmem)
    have hstep : uslStep acc e = acc ++ [(k, e)] := by
      unfold uslStep
      rw [if_neg (by simp [hew]), if_neg (by simp [hnc]), hek,
        insertSorted_append_of_lt _ hlt]
    rw [hstep,
      ih (acc ++ [(k, e)]) (by simpa using hsort)
        (fun x hx => hw x (List.mem_cons_of_mem _ hx))
        (fun x hx => hk x (List.mem_cons_of_mem _ hx))]
    simp

/-- C8. The normalizer is idempotent: renormalizing the entry sequence of an
already-normalized mapping (its values in key order, which is how a
`BTreeMap` iterates) returns the mapping unchanged. -/
theorem normalization_idempotent (logs : List StorageLogWithPreviousValue) :
    UniqueStorageLogs.new ((UniqueStorageLogs.new logs).map Prod.snd)
      = UniqueStorageLogs.new logs := by
  have hfold_sort := pairwise_keysOf_foldl_uslStep logs [] (by simp)
  have hsub : List.Sublist (UniqueStorageLogs.new logs) (logs.foldl uslStep []) :=
    List.filter_sublist _
  have hsort : (keysOf (UniqueStorageLogs.new logs)).Pairwise (· < ·) :=
    List.Pairwise.sublist (hsub.map Prod.fst) hfold_sort
  have hmemfold : ∀ x ∈ UniqueStorageLogs.new logs, x ∈ logs.foldl uslStep [] := by
    intro x hx
    unfold UniqueStorageLogs.new at hx
    exact (List.mem_filter.mp hx).1
  have hw : ∀ x ∈ UniqueStorageLogs.new logs, x.2.log.is_write = true :=
    fun x hx => is_write_of_mem_foldl_uslStep logs [] (by simp) x (hmemfold x hx)
  have hk : ∀ x ∈ UniqueStorageLogs.new logs, x.2.log.key = x.1 :=
    fun x hx => keyfield_of_mem_foldl_uslStep logs [] (by simp) x (hmemfold x hx)
  have hp : ∀ x ∈ UniqueStorageLogs.new logs,
      x.2.previous_value ≠ x.2.log.value := by
    intro x hx
    unfold UniqueStorageLogs.new at hx
    simpa using (List.mem_filter.mp hx).2
  conv_lhs => rw [UniqueStorageLogs.new]
  rw [foldl_uslStep_rebuild _ [] (by simpa using hsort) hw hk, List.nil_append,
    List.filter_eq_self.mpr (by intro a ha; simpa using hp a ha)]

/-! ## `gather_logs` and last-write-wins (claim C10) -/

theorem insertSorted_overwrite {α : Type} (k : Nat) (v₁ v₂ : α) (m : List (Nat × α)) :
    insertSorted k v₂ (insertSorted k v₁ m) = insertSorted k v₂ m := by
  induction m with
  | nil => simp [insertSorted]
  | cons hd tl ih =>
    obtain ⟨k', v'⟩ := hd
    by_cases h1 : k < k'
    · simp [insertSorted, h1, lt_irrefl]
    · by_cases h2 : k = k'
      · simp [insertSorted, h1, h2, lt_irrefl]
      · simp [insertSorted, h1, h2, ih]

theorem insertSorted_comm {α : Type} {j k : Nat} (h : j ≠ k) (v w : α)
    (m : List (Nat × α)) :
    insertSorted j v (insertSorted k w m) = insertSorted k w (insertSorted j v m) := by
  induction m with
  | nil =>
    by_cases hjk : j < k
    · simp [insertSorted, hjk, if_neg (by omega : ¬k < j),
        if_neg (show k ≠ j from Ne.symm h)]
    · simp [insertSorted, (by omega : k < j), if_neg hjk, if_neg h]
  | cons hd tl ih =>
    obtain ⟨p, v'⟩ := hd
    rcases Nat.lt_trichotomy j p with hj | hj | hj
    · rcases Nat.lt_trichotomy k p with hk | hk | hk
      · by_cases hjk : j < k
        · simp [insertSorted, hj, hk, hjk, if_neg (by omega : ¬k < j),
            if_neg (show k ≠ j from Ne.symm h)]
        · simp [insertSorted, hj, hk, (by omega : k < j), if_neg hjk, if_neg h]
      · subst hk
        simp [insertSorted, hj, if_neg (by omega : ¬k < k), if_neg (by omega : ¬k < j),
          if_neg (show k ≠ j from Ne.symm h)]
      · simp [insertSorted, hj, if_neg (by omega : ¬k < p), if_neg (by omega : k ≠ p),
          if_neg (by omega : ¬k < j), if_neg (show k ≠ j from Ne.symm h)]
    · subst hj
      rcases Nat.lt_trichotomy k j with hk | hk | hk
      · simp [insertSorted, hk, if_neg (by omega : ¬j < j), if_neg (by omega : ¬j < k),
          if_neg h]
      · exact absurd hk.symm h
      · simp [insertSorted, if_neg (by omega : ¬j < j), if_neg (by omega : ¬k < j),
          if_neg (show k ≠ j from Ne.symm h)]
    · rcases Nat.lt_trichotomy k p with hk | hk | hk
      · simp [insertSorted, hk, if_neg (by omega : ¬j < p), if_neg (by omega : j ≠ p),
          if_neg (by omega : ¬j < k), if_neg h]
      · subst hk
        simp [insertSorted, if_neg (by omega : ¬k < k), if_neg (by omega : ¬j < k),
          if_neg h]
      · simp [insertSorted, if_neg (by omega : ¬j < p), if_neg (by omega : j ≠ p),
          if_neg (by omega : ¬k < p), if_neg (by omega : k ≠ p), ih]

theorem lookupKey_foldl_gatherStep (j : Nat) (logs : List StorageLog) :
    ∀ m, lookupKey j (List.foldl gatherStep m logs)
      = match (logs.filter fun l => l.is_write && l.key == j).getLast? with
        | some l => some l
        | none => lookupKey j m := by
  induction logs with
  | nil =>
    intro m
    simp
  | cons l rest ih =>
    intro m
    rw [List.foldl_cons]
    by_cases hw : l.is_write = true
    · by_cases hk : l.key = j
      · have hf : (l :: rest).filter (fun x => x.is_write && x.key == j)
            = l :: rest.filter (fun x => x.is_write && x.key == j) := by
          simp [List.filter_cons, hw, hk]
        have hstep : gatherStep m l = insertSorted j l m := by
          simp [gatherStep, hw, hk]
        rw [hstep, ih, hf, List.getLast?_cons]
        cases hr : (rest.filter fun x => x.is_write && x.key == j).getLast? with
        | none => simp [hr, lookupKey_insertSorted_self]
        | some u => simp [hr]
      · have hf : (l :: rest).filter (fun x => x.is_write && x.key == j)
            = rest.filter (fun x => x.is_write && x.key == j) := by
          simp [List.filter_cons, hk]
        have hstep : gatherStep m l = insertSorted l.key l m := by
          simp [gatherStep, hw]
        rw [hstep, ih, hf, lookupKey_insertSorted_ne (show j ≠ l.key from fun hh => hk hh.symm)]
    · have hf : (l :: rest).filter (fun x => x.is_write && x.key == j)
          = rest.filter (fun x => x.is_write && x.key == j) := by
        simp [List.filter_cons, hw]
      have hstep : gatherStep m l = m := by
        simp [gatherStep, hw]
      rw [hstep, ih, hf]

theorem foldl_gatherStep_congr (k : Nat) (v₁ v₂ : StorageLog) :
    ∀ (post : List StorageLog) (m : List (Nat × StorageLog)),
      (∃ l ∈ post, l.is_write = true ∧ l.key = k) →
      List.foldl gatherStep (insertSorted k v₁ m) post
        = List.foldl gatherStep (insertSorted k v₂ m) post := by
  intro post
  induction post with
  | nil =>
    intro m hpost
    simp at hpost
  | cons l t ih =>
    intro m hpost
    rw [List.foldl_cons, List.foldl_cons]
    by_cases hw : l.is_write = true
    · by_cases hk : l.key = k
      · have e1 : gatherStep (insertSorted k v₁ m) l = insertSorted k l m := by
          simp [gatherStep, hw, hk, insertSorted_overwrite]
        have e2 : gatherStep (insertSorted k v₂ m) l = insertSorted k l m := by
          simp [gatherStep, hw, hk, insertSorted_overwrite]
        rw [e1, e2]
      · have hp : ∃ x ∈ t, x.is_write = true ∧ x.key = k := by
          rcases hpost with ⟨x, hx, hxw, hxk⟩
          rcases List.mem_cons.mp hx with rfl | hx
          · exact absurd hxk hk
          · exact ⟨x, hx, hxw, hxk⟩
        have e1 : gatherStep (insertSorted k v₁ m) l
            = insertSorted k v₁ (insertSorted l.key l m) := by
          simp [gatherStep, hw, insertSorted_comm (show l.key ≠ k from hk)]
        have e2 : gatherStep (insertSorted k v₂ m) l
            = insertSorted k v₂ (insertSorted l.key l m) := by
          simp [gatherStep, hw, insertSorted_comm (show l.key ≠ k from hk)]
        rw [e1, e2]
        exact ih _ hp
    · have e1 : gatherStep (insertSorted k v₁ m) l = insertSorted k v₁ m := by
        simp [gatherStep, hw]
      have e2 : gatherStep (insertSorted k v₂ m) l = insertSorted k v₂ m := by
        simp [gatherStep, hw]
      have hp : ∃ x ∈ t, x.is_write = true ∧ x.key = k := by
        rcases hpost with ⟨x, hx, hxw, hxk⟩
        rcases List.mem_cons.mp hx with rfl | hx
        · exact absurd hxw hw
        · exact ⟨x, hx, hxw, hxk⟩
      rw [e1, e2]
      exact ih _ hp

/-- C10. In `check_final_states_match` the `deduplicated_storage_logs` lists
are compared through `gather_logs`, which keeps only write logs and, for a
key written several times, only the last write log in the list (it is the
binding `collect` inserts last). Hence: at any key the projected map holds
the last write log for that key, and two log lists that differ only in an
earlier write log for a key that is written again later project to the same
map, so the final states compare as equal on this field. -/
theorem dedup_last_write_wins (pre post : List StorageLog) (l₁ l₂ : StorageLog)
    (k : Nat) (h₁k : l₁.key = k) (h₂k : l₂.key = k)
    (h₁w : l₁.is_write = true) (h₂w : l₂.is_write = true)
    (hpost : ∃ l ∈ post, l.is_write = true ∧ l.key = k) :
    lookupKey k (DivergenceErrors.gather_logs (pre ++ l₁ :: post))
        = ((pre ++ l₁ :: post).filter fun l => l.is_write && l.key == k).getLast?
    ∧ DivergenceErrors.gather_logs (pre ++ l₁ :: post)
        = DivergenceErrors.gather_logs (pre ++ l₂ :: post) := by
  constructor
  · rw [DivergenceErrors.gather_logs, lookupKey_foldl_gatherStep]
    cases hr : ((pre ++ l₁ :: post).filter fun l => l.is_write && l.key == k).getLast? with
    | none =>
      exfalso
      rcases hpost with ⟨x, hx, hxw, hxk⟩
      have hmem : x ∈ (pre ++ l₁ :: post).filter fun l => l.is_write && l.key == k := by
        rw [List.mem_filter]
        exact ⟨by simp [hx], by simp [hxw, hxk]⟩
      rcases List.ne_nil_of_mem hmem with hne
      rw [List.getLast?_eq_none_iff] at hr
      exact hne hr
    | some u => simp [hr]
  · unfold DivergenceErrors.gather_logs
    rw [List.foldl_append, List.foldl_append, List.foldl_cons, List.foldl_cons]
    have e1 : gatherStep (List.foldl gatherStep [] pre) l₁
        = insertSorted k l₁ (List.foldl gatherStep [] pre) := by
      simp [gatherStep, h₁w, h₁k]
    have e2 : gatherStep (List.foldl gatherStep [] pre) l₂
        = insertSorted k l₂ (List.foldl gatherStep [] pre) := by
      simp [gatherStep, h₂w, h₂k]
    rw [e1, e2]
    exact foldl_gatherStep_congr k l₁ l₂ post _ hpost

/-- C10 (witness): `[w(1, 5)] ++ [w(1, 6)] :: [w(1, 9)]` and
`[w(1, 5)] ++ [w(1, 7)] :: [w(1, 9)]` project to the same map because the
later write to key `1` wins. -/
theorem dedup_last_write_wins_witness :
    lookupKey 1 (DivergenceErrors.gather_logs
        (([⟨1, 5, true⟩] : List StorageLog) ++ (⟨1, 6, true⟩ : StorageLog) :: [⟨1, 9, true⟩]))
        = ((([⟨1, 5, true⟩] : List StorageLog)
              ++ (⟨1, 6, true⟩ : StorageLog) :: [⟨1, 9, true⟩]).filter
            fun l => l.is_write && l.key == 1).getLast?
    ∧ DivergenceErrors.gather_logs
          (([⟨1, 5, true⟩] : List StorageLog) ++ (⟨1, 6, true⟩ : StorageLog) :: [⟨1, 9, true⟩])
        = DivergenceErrors.gather_logs
          (([⟨1, 5, true⟩] : List StorageLog) ++ (⟨1, 7, true⟩ : StorageLog) :: [⟨1, 9, true⟩]) :=
  dedup_last_write_wins [⟨1, 5, true⟩] [⟨1, 9, true⟩] ⟨1, 6, true⟩ ⟨1, 7, true⟩ 1
    rfl rfl rfl rfl ⟨⟨1, 9, true⟩, by simp, rfl, rfl⟩

/-! ## The Shadow VM driver: data model

Transactions, block environments, events, L2-to-L1 logs, refunds, bytecode
info and memory metrics are opaque to the driver (it only clones them and
compares them for equality), so they are modelled by `Nat` / `List Nat`.
The `logs` sub-struct of `VmExecutionResultAndLogs` is inlined. -/

abbrev Tx := Nat
abbrev L2BlockEnvT := Nat

inductive VmExecutionMode where
  | oneTx
  | batch
  | bootloader
deriving DecidableEq

structure VmExecutionResultAndLogs where
  result : Nat
  events : List Nat
  system_l2_to_l1_logs : List Nat
  user_l2_to_l1_logs : List Nat
  storage_logs : List StorageLogWithPreviousValue
  refunds : Nat
deriving DecidableEq

structure CurrentExecutionState where
  events : List Nat
  user_l2_to_l1_logs : List Nat
  system_logs : List Nat
  storage_refunds : List Nat
  pubdata_costs : List Nat
  used_contract_hashes : List Nat
  deduplicated_storage_logs : List StorageLog
deriving DecidableEq

structure FinishedL1Batch where
  block_tip_execution_result : VmExecutionResultAndLogs
  final_execution_state : CurrentExecutionState
  final_bootloader_memory : List Nat
  pubdata_input : Option (List Nat)
  state_diffs : List Nat
deriving DecidableEq

/-! ## `DivergenceErrors` (the comparator)

`DivergenceErrors` is a `Vec<anyhow::Error>`; an error is identified here by
the context string passed to `check_match` (the pretty-printed diff carries
no extra decision-relevant information). `into_result` is `Ok` iff the vector
is empty, which the driver tests through `errs.isEmpty`. -/

def DivergenceErrors.check_match {α : Type} [DecidableEq α] (errs : List String)
    (context : String) (main shadow : α) : List String :=
  if main = shadow then errs else errs ++ [context]

def DivergenceErrors.check_results_match (errs : List String)
    (main_result shadow_result : VmExecutionResultAndLogs) : List String :=
  let errs := DivergenceErrors.check_match errs "result"
    main_result.result shadow_result.result
  let errs := DivergenceErrors.check_match errs "logs.events"
    main_result.events shadow_result.events
  let errs := DivergenceErrors.check_match errs "logs.system_l2_to_l1_logs"
    main_result.system_l2_to_l1_logs shadow_result.system_l2_to_l1_logs
  let errs := DivergenceErrors.check_match errs "logs.user_l2_to_l1_logs"
    main_result.user_l2_to_l1_logs shadow_result.user_l2_to_l1_logs
  let main_logs := UniqueStorageLogs.new main_result.storage_logs
  let shadow_logs := UniqueStorageLogs.new shadow_result.storage_logs
  let errs := DivergenceErrors.check_match errs "logs.storage_logs" main_logs shadow_logs
  DivergenceErrors.check_match errs "refunds" main_result.refunds shadow_result.refunds

/-- `BTreeSet<Nat>` insertion into a sorted duplicate-free list. -/
def insertSortedSet (k : Nat) : List Nat → List Nat
  | [] => [k]
  | k' :: rest =>
    if k < k' then k :: k' :: rest
    else if k = k' then k' :: rest
    else k' :: insertSortedSet k rest

/-- `iter().collect::<BTreeSet<_>>()`. -/
def toBTreeSet (l : List Nat) : List Nat :=
  l.foldl (fun s k => insertSortedSet k s) []

def DivergenceErrors.check_final_states_match (errs : List String)
    (main shadow : CurrentExecutionState) : List String :=
  let errs := DivergenceErrors.check_match errs "final_state.events"
    main.events shadow.events
  let errs := DivergenceErrors.check_match errs "final_state.user_l2_to_l1_logs"
    main.user_l2_to_l1_logs shadow.user_l2_to_l1_logs
  let errs := DivergenceErrors.check_match errs "final_state.system_logs"
    main.system_logs shadow.system_logs
  let errs := DivergenceErrors.check_match errs "final_state.storage_refunds"
    main.storage_refunds shadow.storage_refunds
  let errs := DivergenceErrors.check_match errs "final_state.pubdata_costs"
    main.pubdata_costs shadow.pubdata_costs
  let errs := DivergenceErrors.check_match errs "final_state.used_contract_hashes"
    (toBTreeSet main.used_contract_hashes) (toBTreeSet shadow.used_contract_hashes)
  DivergenceErrors.check_match errs "deduplicated_storage_logs"
    (DivergenceErrors.gather_logs main.deduplicated_storage_logs)
    (DivergenceErrors.gather_logs shadow.deduplicated_storage_logs)

def DivergenceErrors.single {α : Type} [DecidableEq α] (context : String)
    (main shadow : α) : List String :=
  DivergenceErrors.check_match [] context main shadow

/-! ## Engines and the driver state -/

/-- The downward engine interface (`VmInterface` together with
`VmInterfaceHistoryEnabled`), as a deterministic machine over engine states
`σ` with tracer dispatcher type `τ`. Methods taking `&self` in Rust do not
change the engine state. The `Option Nat` component models
`Result<(), BytecodeCompressionError>` (`none` is `Ok`). -/
structure VmEngine (σ τ : Type) where
  push_transaction : σ → Tx → σ
  execute : σ → VmExecutionMode → σ × VmExecutionResultAndLogs
  inspect : σ → τ → VmExecutionMode → σ × VmExecutionResultAndLogs
  execute_transaction_with_bytecode_compression :
    σ → Tx → Bool → σ × (Option Nat × VmExecutionResultAndLogs)
  inspect_transaction_with_bytecode_compression :
    σ → τ → Tx → Bool → σ × (Option Nat × VmExecutionResultAndLogs)
  start_new_l2_block : σ → L2BlockEnvT → σ
  finish_batch : σ → σ × FinishedL1Batch
  get_bootloader_memory : σ → List Nat
  get_last_tx_compressed_bytecodes : σ → List Nat
  get_current_execution_state : σ → CurrentExecutionState
  gas_remaining : σ → Nat
  record_vm_memory_metrics : σ → Nat
  make_snapshot : σ → σ
  rollback_to_the_latest_snapshot : σ → σ
  pop_snapshot_no_rollback : σ → σ

inductive BlockOrTransaction where
  | block (env : L2BlockEnvT)
  | transaction (tx : Tx)
deriving DecidableEq

/-- `VmStateDump`. The driver reads only the batch number of `l1_batch_env`;
the storage-cache fields (`read_storage_keys`, `initial_writes`,
`repeated_writes`, `factory_deps`) are populated at `report` time from the
storage backend, which is outside this model. -/
structure VmStateDump where
  batch_number : Nat
  blocks_and_transactions : List BlockOrTransaction
deriving DecidableEq

def VmStateDump.push_transaction (dump : VmStateDump) (tx : Tx) : VmStateDump :=
  { dump with
    blocks_and_transactions := dump.blocks_and_transactions ++ [.transaction tx] }

structure VmWithReporting (σ₂ : Type) where
  vm : σ₂
  partial_dump : VmStateDump
  dumps_directory : Option Nat
  panic_on_divergence : Bool
deriving DecidableEq

structure ShadowVm (σ₁ σ₂ : Type) where
  main : σ₁
  shadow : Option (VmWithReporting σ₂)
deriving DecidableEq

/-- `VmFactory::new` for `ShadowVm`: both engines freshly constructed, the
dump empty, no dumps directory, `panic_on_divergence = true`. -/
def ShadowVm.new {σ₁ σ₂ : Type} (main : σ₁) (shadow_vm : σ₂) (batch_number : Nat) :
    ShadowVm σ₁ σ₂ :=
  { main := main
    shadow := some
      { vm := shadow_vm
        partial_dump := { batch_number := batch_number, blocks_and_transactions := [] }
        dumps_directory := none
        panic_on_divergence := true } }

def ShadowVm.set_dumps_directory {σ₁ σ₂ : Type} (s : ShadowVm σ₁ σ₂) (dir : Nat) :
    ShadowVm σ₁ σ₂ :=
  match s.shadow with
  | some w => { s with shadow := some { w with dumps_directory := some dir } }
  | none => s

def ShadowVm.set_panic_on_divergence {σ₁ σ₂ : Type} (s : ShadowVm σ₁ σ₂) (p : Bool) :
    ShadowVm σ₁ σ₂ :=
  match s.shadow with
  | some w => { s with shadow := some { w with panic_on_divergence := p } }
  | none => s

/-! ## Driver operations, observable events, and the step function -/

/-- The upward operation surface of the driver (`VmInterface` and the snapshot
trio), with the primary's tracer dispatcher type `τ`. -/
inductive Op (τ : Type) where
  | push_transaction (tx : Tx)
  | execute (mode : VmExecutionMode)
  | inspect (tracer : τ) (mode : VmExecutionMode)
  | execute_transaction_with_bytecode_compression (tx : Tx) (with_compression : Bool)
  | inspect_transaction_with_bytecode_compression (tracer : τ) (tx : Tx)
      (with_compression : Bool)
  | start_new_l2_block (env : L2BlockEnvT)
  | finish_batch
  | get_bootloader_memory
  | get_last_tx_compressed_bytecodes
  | get_current_execution_state
  | gas_remaining
  | record_vm_memory_metrics
  | make_snapshot
  | rollback_to_the_latest_snapshot
  | pop_snapshot_no_rollback
deriving DecidableEq

/-- A downward engine call with its arguments, the tracer erased (the
secondary receives the unit tracer `()` in place of the primary's). -/
inductive DownOp where
  | push_transaction (tx : Tx)
  | execute (mode : VmExecutionMode)
  | inspect (mode : VmExecutionMode)
  | execute_transaction_with_bytecode_compression (tx : Tx) (with_compression : Bool)
  | inspect_transaction_with_bytecode_compression (tx : Tx) (with_compression : Bool)
  | start_new_l2_block (env : L2BlockEnvT)
  | finish_batch
  | get_bootloader_memory
  | get_last_tx_compressed_bytecodes
  | get_current_execution_state
  | gas_remaining
  | record_vm_memory_metrics
  | make_snapshot
  | rollback_to_the_latest_snapshot
  | pop_snapshot_no_rollback
deriving DecidableEq

def Op.down {τ : Type} : Op τ → DownOp
  | .push_transaction tx => .push_transaction tx
  | .execute mode => .execute mode
  | .inspect _ mode => .inspect mode
  | .execute_transaction_with_bytecode_compression tx c =>
      .execute_transaction_with_bytecode_compression tx c
  | .inspect_transaction_with_bytecode_compression _ tx c =>
      .inspect_transaction_with_bytecode_compression tx c
  | .start_new_l2_block env => .start_new_l2_block env
  | .finish_batch => .finish_batch
  | .get_bootloader_memory => .get_bootloader_memory
  | .get_last_tx_compressed_bytecodes => .get_last_tx_compressed_bytecodes
  | .get_current_execution_state => .get_current_execution_state
  | .gas_remaining => .gas_remaining
  | .record_vm_memory_metrics => .record_vm_memory_metrics
  | .make_snapshot => .make_snapshot
  | .rollback_to_the_latest_snapshot => .rollback_to_the_latest_snapshot
  | .pop_snapshot_no_rollback => .pop_snapshot_no_rollback

/-- The observable events of one driver operation, in the order they happen:
an append to the partial dump, a call into the primary engine, a call into the
secondary engine, a comparator run, the query `report` makes to the primary
for `used_contract_hashes` (to collect factory deps for the dump), and the
emission of a finalized dump. -/
inductive Event where
  | dumpAppend (entry : BlockOrTransaction)
  | primaryCall (op : DownOp)
  | secondaryCall (op : DownOp)
  | compareRun
  | reportPrimaryState
  | dumpEmitted (dump : VmStateDump)
deriving DecidableEq

/-- The value a driver operation returns (one constructor per return type of
the Rust methods). -/
inductive RetVal where
  | unit
  | exec (r : VmExecutionResultAndLogs)
  | execComp (c : Option Nat) (r : VmExecutionResultAndLogs)
  | finished (b : FinishedL1Batch)
  | mem (m : List Nat)
  | bytecodes (bc : List Nat)
  | state (s : CurrentExecutionState)
  | gas (g : Nat)
  | metrics (m : Nat)
deriving DecidableEq

/-- The outcome of one driver operation: a new state, the returned value and
the event trace — or a panic (the trace then holds the events that happened
before the process died). -/
inductive StepResult (σ₁ σ₂ : Type) where
  | ok (s : ShadowVm σ₁ σ₂) (v : RetVal) (tr : List Event)
  | panic (tr : List Event)
deriving DecidableEq

/-- Dynamic borrow state of the `RefCell` that holds the shadow slot. -/
inductive BorrowState where
  | unused
  | sharedBorrowed
deriving DecidableEq

/-- `RefCell::take` (it calls `borrow_mut` through `replace`): with no live
borrow it yields the contents paired with the emptied cell; with a live
shared borrow the dynamic borrow check fails and the call panics with a
`BorrowMutError` (modelled as `none`). -/
def RefCell.take {α : Type} (b : BorrowState) (contents : Option α) :
    Option (Option α × Option α) :=
  match b with
  | .unused => some (contents, none)
  | .sharedBorrowed => none

/-- `VmWithReporting::report`: logs the divergence, fills the dump's storage
fields from the storage cache (outside this model), queries the *main* VM's
current execution state for `used_contract_hashes` to load factory deps,
writes the finalized dump to a file (failures swallowed) and to the error
log, then panics iff `panic_on_divergence`, else logs that the secondary is
dropped. Observables kept: the query to the main VM, the emitted dump, and
whether the call panics. -/
def VmWithReporting.report {σ₂ : Type} (w : VmWithReporting σ₂) : List Event × Bool :=
  ([Event.reportPrimaryState, Event.dumpEmitted w.partial_dump], w.panic_on_divergence)

/-- The divergence branch of the four `&self` query ops:
`self.shadow.take().unwrap().report(&self.main, err)`, executed inside
`if let Some(shadow) = &*self.shadow.borrow() { ... }`. The temporary `Ref`
produced by `borrow()` lives to the end of the whole `if let` (and the
pattern borrows out of it), so `RefCell::take` runs under a live shared
borrow. The `some` branches spell out what the code intends to do, but
`RefCell.take` under `sharedBorrowed` always panics before reaching them. -/
def queryDivergencePath {σ₁ σ₂ : Type} (main : σ₁)
    (shadow : Option (VmWithReporting σ₂)) (v : RetVal) (callTrace : List Event) :
    StepResult σ₁ σ₂ :=
  match RefCell.take BorrowState.sharedBorrowed shadow with
  | none => StepResult.panic callTrace
  | some (none, _) => StepResult.panic callTrace
  | some (some w, emptied) =>
    let r := w.report
    if r.2 then StepResult.panic (callTrace ++ r.1)
    else StepResult.ok ⟨main, emptied⟩ v (callTrace ++ r.1)

/-- One driver operation of `ShadowVm`, embedding the corresponding method of
`impl VmInterface for ShadowVm` / `impl VmInterfaceHistoryEnabled for
ShadowVm`, with primary engine `E₁` and secondary engine `E₂` (the secondary
takes the unit tracer). -/
def ShadowVm.step {σ₁ σ₂ τ : Type} (E₁ : VmEngine σ₁ τ) (E₂ : VmEngine σ₂ Unit)
    (s : ShadowVm σ₁ σ₂) : Op τ → StepResult σ₁ σ₂
  | .push_transaction tx =>
    match s.shadow with
    | some w =>
      let w := { w with
        partial_dump := w.partial_dump.push_transaction tx
        vm := E₂.push_transaction w.vm tx }
      .ok ⟨E₁.push_transaction s.main tx, some w⟩ .unit
        [.dumpAppend (.transaction tx), .secondaryCall (.push_transaction tx),
          .primaryCall (.push_transaction tx)]
    | none =>
      .ok ⟨E₁.push_transaction s.main tx, none⟩ .unit
        [.primaryCall (.push_transaction tx)]
  | .execute mode =>
    let p := E₁.execute s.main mode
    match s.shadow with
    | some w =>
      let q := E₂.execute w.vm mode
      let errs := DivergenceErrors.check_results_match [] p.2 q.2
      let calls : List Event :=
        [.primaryCall (.execute mode), .secondaryCall (.execute mode), .compareRun]
      if errs.isEmpty then
        .ok ⟨p.1, some { w with vm := q.1 }⟩ (.exec p.2) calls
      else
        let r := ({ w with vm := q.1 } : VmWithReporting σ₂).report
        if r.2 then .panic (calls ++ r.1)
        else .ok ⟨p.1, none⟩ (.exec p.2) (calls ++ r.1)
    | none => .ok ⟨p.1, none⟩ (.exec p.2) [.primaryCall (.execute mode)]
  | .inspect tracer mode =>
    let p := E₁.inspect s.main tracer mode
    match s.shadow with
    | some w =>
      let q := E₂.inspect w.vm () mode
      let errs := DivergenceErrors.check_results_match [] p.2 q.2
      let calls : List Event :=
        [.primaryCall (.inspect mode), .secondaryCall (.inspect mode), .compareRun]
      if errs.isEmpty then
        .ok ⟨p.1, some { w with vm := q.1 }⟩ (.exec p.2) calls
      else
        let r := ({ w with vm := q.1 } : VmWithReporting σ₂).report
        if r.2 then .panic (calls ++ r.1)
        else .ok ⟨p.1, none⟩ (.exec p.2) (calls ++ r.1)
    | none => .ok ⟨p.1, none⟩ (.exec p.2) [.primaryCall (.inspect mode)]
  | .execute_transaction_with_bytecode_compression tx c =>
    let p := E₁.execute_transaction_with_bytecode_compression s.main tx c
    match s.shadow with
    | some w =>
      let q := E₂.execute_transaction_with_bytecode_compression w.vm tx c
      let errs := DivergenceErrors.check_results_match [] p.2.2 q.2.2
      let calls : List Event :=
        [.primaryCall (.execute_transaction_with_bytecode_compression tx c),
          .dumpAppend (.transaction tx),
          .secondaryCall (.execute_transaction_with_bytecode_compression tx c),
          .compareRun]
      let w' : VmWithReporting σ₂ :=
        { w with partial_dump := w.partial_dump.push_transaction tx, vm := q.1 }
      if errs.isEmpty then
        .ok ⟨p.1, some w'⟩ (.execComp p.2.1 p.2.2) calls
      else
        let r := w'.report
        if r.2 then .panic (calls ++ r.1)
        else .ok ⟨p.1, none⟩ (.execComp p.2.1 p.2.2) (calls ++ r.1)
    | none =>
      .ok ⟨p.1, none⟩ (.execComp p.2.1 p.2.2)
        [.primaryCall (.execute_transaction_with_bytecode_compression tx c)]
  | .inspect_transaction_with_bytecode_compression tracer tx c =>
    let p := E₁.inspect_transaction_with_bytecode_compression s.main tracer tx c
    match s.shadow with
    | some w =>
      let q := E₂.inspect_transaction_with_bytecode_compression w.vm () tx c
      let errs := DivergenceErrors.check_results_match [] p.2.2 q.2.2
      let calls : List Event :=
        [.primaryCall (.inspect_transaction_with_bytecode_compression tx c),
          .dumpAppend (.transaction tx),
          .secondaryCall (.inspect_transaction_with_bytecode_compression tx c),
          .compareRun]
      let w' : VmWithReporting σ₂ :=
        { w with partial_dump := w.partial_dump.push_transaction tx, vm := q.1 }
      if errs.isEmpty then
        .ok ⟨p.1, some w'⟩ (.execComp p.2.1 p.2.2) calls
      else
        let r := w'.report
        if r.2 then .panic (calls ++ r.1)
        else .ok ⟨p.1, none⟩ (.execComp p.2.1 p.2.2) (calls ++ r.1)
    | none =>
      .ok ⟨p.1, none⟩ (.execComp p.2.1 p.2.2)
        [.primaryCall (.inspect_transaction_with_bytecode_compression tx c)]
  | .start_new_l2_block env =>
    match s.shadow with
    | some w =>
      .ok ⟨E₁.start_new_l2_block s.main env, some { w with
          partial_dump := { w.partial_dump with blocks_and_transactions :=
            w.partial_dump.blocks_and_transactions ++ [.block env] }
          vm := E₂.start_new_l2_block w.vm env }⟩ .unit
        [.primaryCall (.start_new_l2_block env), .dumpAppend (.block env),
          .secondaryCall (.start_new_l2_block env)]
    | none =>
      .ok ⟨E₁.start_new_l2_block s.main env, none⟩ .unit
        [.primaryCall (.start_new_l2_block env)]
  | .finish_batch =>
    let p := E₁.finish_batch s.main
    match s.shadow with
    | some w =>
      let q := E₂.finish_batch w.vm
      let errs := DivergenceErrors.check_results_match []
        p.2.block_tip_execution_result q.2.block_tip_execution_result
      let errs := DivergenceErrors.check_final_states_match errs
        p.2.final_execution_state q.2.final_execution_state
      let errs := DivergenceErrors.check_match errs "final_bootloader_memory"
        p.2.final_bootloader_memory q.2.final_bootloader_memory
      let errs := DivergenceErrors.check_match errs "pubdata_input"
        p.2.pubdata_input q.2.pubdata_input
      let errs := DivergenceErrors.check_match errs "state_diffs"
        p.2.state_diffs q.2.state_diffs
      let calls : List Event :=
        [.primaryCall .finish_batch, .secondaryCall .finish_batch, .compareRun]
      if errs.isEmpty then
        .ok ⟨p.1, some { w with vm := q.1 }⟩ (.finished p.2) calls
      else
        let r := ({ w with vm := q.1 } : VmWithReporting σ₂).report
        if r.2 then .panic (calls ++ r.1)
        else .ok ⟨p.1, none⟩ (.finished p.2) (calls ++ r.1)
    | none => .ok ⟨p.1, none⟩ (.finished p.2) [.primaryCall .finish_batch]
  | .get_bootloader_memory =>
    let main_memory := E₁.get_bootloader_memory s.main
    match s.shadow with
    | some w =>
      let shadow_memory := E₂.get_bootloader_memory w.vm
      let result := DivergenceErrors.single "get_bootloader_memory"
        main_memory shadow_memory
      let calls : List Event := [.primaryCall .get_bootloader_memory,
        .secondaryCall .get_bootloader_memory, .compareRun]
      if result.isEmpty then .ok s (.mem main_memory) calls
      else queryDivergencePath s.main s.shadow (.mem main_memory) calls
    | none => .ok s (.mem main_memory) [.primaryCall .get_bootloader_memory]
  | .get_last_tx_compressed_bytecodes =>
    let main_bytecodes := E₁.get_last_tx_compressed_bytecodes s.main
    match s.shadow with
    | some w =>
      let shadow_bytecodes := E₂.get_last_tx_compressed_bytecodes w.vm
      let result := DivergenceErrors.single "get_last_tx_compressed_bytecodes"
        main_bytecodes shadow_bytecodes
      let calls : List Event := [.primaryCall .get_last_tx_compressed_bytecodes,
        .secondaryCall .get_last_tx_compressed_bytecodes, .compareRun]
      if result.isEmpty then .ok s (.bytecodes main_bytecodes) calls
      else queryDivergencePath s.main s.shadow (.bytecodes main_bytecodes) calls
    | none =>
      .ok s (.bytecodes main_bytecodes) [.primaryCall .get_last_tx_compressed_bytecodes]
  | .get_current_execution_state =>
    let main_state := E₁.get_current_execution_state s.main
    match s.shadow with
    | some w =>
      let shadow_state := E₂.get_current_execution_state w.vm
      let result := DivergenceErrors.single "get_current_execution_state"
        main_state shadow_state
      let calls : List Event := [.primaryCall .get_current_execution_state,
        .secondaryCall .get_current_execution_state, .compareRun]
      if result.isEmpty then .ok s (.state main_state) calls
      else queryDivergencePath s.main s.shadow (.state main_state) calls
    | none => .ok s (.state main_state) [.primaryCall .get_current_execution_state]
  | .gas_remaining =>
    let main_gas := E₁.gas_remaining s.main
    match s.shadow with
    | some w =>
      let shadow_gas := E₂.gas_remaining w.vm
      let result := DivergenceErrors.single "gas_remaining" main_gas shadow_gas
      let calls : List Event := [.primaryCall .gas_remaining,
        .secondaryCall .gas_remaining, .compareRun]
      if result.isEmpty then .ok s (.gas main_gas) calls
      else queryDivergencePath s.main s.shadow (.gas main_gas) calls
    | none => .ok s (.gas main_gas) [.primaryCall .gas_remaining]
  | .record_vm_memory_metrics =>
    .ok s (.metrics (E₁.record_vm_memory_metrics s.main))
      [.primaryCall .record_vm_memory_metrics]
  | .make_snapshot =>
    match s.shadow with
    | some w =>
      .ok ⟨E₁.make_snapshot s.main, some { w with vm := E₂.make_snapshot w.vm }⟩ .unit
        [.secondaryCall .make_snapshot, .primaryCall .make_snapshot]
    | none => .ok ⟨E₁.make_snapshot s.main, none⟩ .unit [.primaryCall .make_snapshot]
  | .rollback_to_the_latest_snapshot =>
    match s.shadow with
    | some w =>
      .ok ⟨E₁.rollback_to_the_latest_snapshot s.main,
          some { w with vm := E₂.rollback_to_the_latest_snapshot w.vm }⟩ .unit
        [.secondaryCall .rollback_to_the_latest_snapshot,
          .primaryCall .rollback_to_the_latest_snapshot]
    | none =>
      .ok ⟨E₁.rollback_to_the_latest_snapshot s.main, none⟩ .unit
        [.primaryCall .rollback_to_the_latest_snapshot]
  | .pop_snapshot_no_rollback =>
    match s.shadow with
    | some w =>
      .ok ⟨E₁.pop_snapshot_no_rollback s.main,
          some { w with vm := E₂.pop_snapshot_no_rollback w.vm }⟩ .unit
        [.secondaryCall .pop_snapshot_no_rollback,
          .primaryCall .pop_snapshot_no_rollback]
    | none =>
      .ok ⟨E₁.pop_snapshot_no_rollback s.main, none⟩ .unit
        [.primaryCall .pop_snapshot_no_rollback]

/-! ## The primary engine in isolation, and runs -/

/-- The same operation surface applied to the primary engine alone. -/
def mainStep {σ₁ τ : Type} (E₁ : VmEngine σ₁ τ) (s : σ₁) : Op τ → σ₁ × RetVal
  | .push_transaction tx => (E₁.push_transaction s tx, .unit)
  | .execute mode =>
    let p := E₁.execute s mode
    (p.1, .exec p.2)
  | .inspect tracer mode =>
    let p := E₁.inspect s tracer mode
    (p.1, .exec p.2)
  | .execute_transaction_with_bytecode_compression tx c =>
    let p := E₁.execute_transaction_with_bytecode_compression s tx c
    (p.1, .execComp p.2.1 p.2.2)
  | .inspect_transaction_with_bytecode_compression tracer tx c =>
    let p := E₁.inspect_transaction_with_bytecode_compression s tracer tx c
    (p.1, .execComp p.2.1 p.2.2)
  | .start_new_l2_block env => (E₁.start_new_l2_block s env, .unit)
  | .finish_batch =>
    let p := E₁.finish_batch s
    (p.1, .finished p.2)
  | .get_bootloader_memory => (s, .mem (E₁.get_bootloader_memory s))
  | .get_last_tx_compressed_bytecodes =>
    (s, .bytecodes (E₁.get_last_tx_compressed_bytecodes s))
  | .get_current_execution_state => (s, .state (E₁.get_current_execution_state s))
  | .gas_remaining => (s, .gas (E₁.gas_remaining s))
  | .record_vm_memory_metrics => (s, .metrics (E₁.record_vm_memory_metrics s))
  | .make_snapshot => (E₁.make_snapshot s, .unit)
  | .rollback_to_the_latest_snapshot => (E₁.rollback_to_the_latest_snapshot s, .unit)
  | .pop_snapshot_no_rollback => (E₁.pop_snapshot_no_rollback s, .unit)

/-- The primary engine in isolation over a sequence of operations: final
state and the list of returned values. -/
def mainRun {σ₁ τ : Type} (E₁ : VmEngine σ₁ τ) (s : σ₁) :
    List (Op τ) → σ₁ × List RetVal
  | [] => (s, [])
  | op :: ops =>
    let p := mainStep E₁ s op
    let r := mainRun E₁ p.1 ops
    (r.1, p.2 :: r.2)

/-- The outcome of a driver run: returned values and per-operation event
traces of the operations that completed (plus, after a panic, the trace of
the panicking operation), and the final state (`none` if the process
panicked). -/
structure RunResult (σ₁ σ₂ : Type) where
  outputs : List RetVal
  traces : List (List Event)
  final : Option (ShadowVm σ₁ σ₂)

def ShadowVm.run {σ₁ σ₂ τ : Type} (E₁ : VmEngine σ₁ τ) (E₂ : VmEngine σ₂ Unit)
    (s : ShadowVm σ₁ σ₂) : List (Op τ) → RunResult σ₁ σ₂
  | [] => ⟨[], [], some s⟩
  | op :: ops =>
    match ShadowVm.step E₁ E₂ s op with
    | .ok s' v tr =>
      let r := ShadowVm.run E₁ E₂ s' ops
      ⟨v :: r.outputs, tr :: r.traces, r.final⟩
    | .panic tr => ⟨[], [tr], none⟩

/-! ## Trace observables -/

def StepResult.trace {σ₁ σ₂ : Type} : StepResult σ₁ σ₂ → List Event
  | .ok _ _ tr => tr
  | .panic tr => tr

def Event.kind : Event → Nat
  | .dumpAppend _ => 0
  | .primaryCall _ => 1
  | .secondaryCall _ => 2
  | .compareRun => 3
  | .reportPrimaryState => 5
  | .dumpEmitted _ => 4

def kindTrace (tr : List Event) : List Nat :=
  tr.map Event.kind

/-- The operations the driver forwarded to the primary engine, in order. -/
def primaryCalls (tr : List Event) : List DownOp :=
  tr.filterMap fun e =>
    match e with
    | .primaryCall d => some d
    | _ => none

/-- The operations the driver forwarded to the secondary engine, in order. -/
def secondaryCalls (tr : List Event) : List DownOp :=
  tr.filterMap fun e =>
    match e with
    | .secondaryCall d => some d
    | _ => none

/-- The dump-append events of a trace, in order. -/
def dumpAppends (tr : List Event) : List BlockOrTransaction :=
  tr.filterMap fun e =>
    match e with
    | .dumpAppend b => some b
    | _ => none

def countDumpsEmitted (tr : List Event) : Nat :=
  (tr.filter fun e => Event.kind e == 4).length

def countSecondaryCalls (tr : List Event) : Nat :=
  (tr.filter fun e => Event.kind e == 2).length

def countCompares (tr : List Event) : Nat :=
  (tr.filter fun e => Event.kind e == 3).length

/-- No dump-append (kind 0) occurs after a secondary call (kind 2). -/
def dumpsPrecedeSecondaries : List Nat → Bool
  | [] => true
  | k :: rest =>
    (if k = 2 then !rest.contains 0 else true) && dumpsPrecedeSecondaries rest

/-- No engine call (kind 1 or 2) occurs after a comparator run (kind 3). -/
def comparesAfterEngineCalls : List Nat → Bool
  | [] => true
  | k :: rest =>
    (if k = 3 then !(rest.contains 1 || rest.contains 2) else true)
      && comparesAfterEngineCalls rest

/-- Whether a list of numbers is nondecreasing. -/
def nondecreasing : List Nat → Bool
  | [] => true
  | [_] => true
  | a :: b :: rest => decide (a ≤ b) && nondecreasing (b :: rest)

/-- The phase order the spec's "Ordering rule" sentence asserts: every
dump update (0) before every primary call (1) before every secondary call (2)
before every comparison (3). -/
abbrev claimedPhaseOrder (tr : List Event) : Prop :=
  nondecreasing ((kindTrace tr).filter fun k => decide (k ≤ 3)) = true

/-- The transaction/block inputs an operation carries, in the order the
driver records them. -/
def Op.dumpInputs {τ : Type} : Op τ → List BlockOrTransaction
  | .push_transaction tx => [.transaction tx]
  | .execute_transaction_with_bytecode_compression tx _ => [.transaction tx]
  | .inspect_transaction_with_bytecode_compression _ tx _ => [.transaction tx]
  | .start_new_l2_block env => [.block env]
  | _ => []

/-! ## Concrete engines and states for witnesses and counterexamples -/

def defaultResult : VmExecutionResultAndLogs :=
  { result := 0, events := [], system_l2_to_l1_logs := [], user_l2_to_l1_logs := []
    storage_logs := [], refunds := 0 }

def defaultState : CurrentExecutionState :=
  { events := [], user_l2_to_l1_logs := [], system_logs := [], storage_refunds := []
    pubdata_costs := [], used_contract_hashes := [], deduplicated_storage_logs := [] }

def defaultBatch : FinishedL1Batch :=
  { block_tip_execution_result := defaultResult, final_execution_state := defaultState
    final_bootloader_memory := [], pubdata_input := none, state_diffs := [] }

/-- A stateless engine returning fixed values; `g` is its remaining gas. -/
def constEngine (g : Nat) : VmEngine Unit Unit where
  push_transaction := fun _ _ => ()
  execute := fun _ _ => ((), defaultResult)
  inspect := fun _ _ _ => ((), defaultResult)
  execute_transaction_with_bytecode_compression := fun _ _ _ => ((), (none, defaultResult))
  inspect_transaction_with_bytecode_compression := fun _ _ _ _ => ((), (none, defaultResult))
  start_new_l2_block := fun _ _ => ()
  finish_batch := fun _ => ((), defaultBatch)
  get_bootloader_memory := fun _ => []
  get_last_tx_compressed_bytecodes := fun _ => []
  get_current_execution_state := fun _ => defaultState
  gas_remaining := fun _ => g
  record_vm_memory_metrics := fun _ => 0
  make_snapshot := fun _ => ()
  rollback_to_the_latest_snapshot := fun _ => ()
  pop_snapshot_no_rollback := fun _ => ()

example :
    ShadowVm.step (constEngine 7) (constEngine 7) (ShadowVm.new () () 0)
        (Op.gas_remaining : Op Unit)
      = StepResult.ok (ShadowVm.new () () 0) (RetVal.gas 7)
          [.primaryCall .gas_remaining, .secondaryCall .gas_remaining, .compareRun] := by
  decide

example :
    ShadowVm.step (constEngine 7) (constEngine 8)
        ((ShadowVm.new () () 0).set_panic_on_divergence false) (Op.gas_remaining : Op Unit)
      = StepResult.panic
          [.primaryCall .gas_remaining, .secondaryCall .gas_remaining, .compareRun] := by
  decide

/-! ## Per-step lemmas about the driver -/

/-- After retirement the driver short-circuits: every operation only drives
the primary (exactly as `mainStep`), returns its value, and leaves the empty
shadow slot empty. -/
theorem step_of_retired {σ₁ σ₂ τ : Type} (E₁ : VmEngine σ₁ τ) (E₂ : VmEngine σ₂ Unit)
    (s : ShadowVm σ₁ σ₂) (op : Op τ) (h : s.shadow = none) :
    ShadowVm.step E₁ E₂ s op
      = StepResult.ok ⟨(mainStep E₁ s.main op).1, none⟩ (mainStep E₁ s.main op).2
          [Event.primaryCall (Op.down op)] := by
  obtain ⟨mn, sh⟩ := s
  simp only at h
  subst h
  cases op <;> rfl

/-- Passthrough, per operation: when a driver operation completes, its return
value and its effect on the primary engine are exactly those of `mainStep` on
the primary alone. -/
theorem step_main_ok {σ₁ σ₂ τ : Type} (E₁ : VmEngine σ₁ τ) (E₂ : VmEngine σ₂ Unit)
    (s : ShadowVm σ₁ σ₂) (op : Op τ) (s' : ShadowVm σ₁ σ₂) (v : RetVal)
    (tr : List Event) (h : ShadowVm.step E₁ E₂ s op = StepResult.ok s' v tr) :
    s'.main = (mainStep E₁ s.main op).1 ∧ v = (mainStep E₁ s.main op).2 := by
  obtain ⟨mn, sh⟩ := s
  cases sh with
  | none =>
    rw [step_of_retired E₁ E₂ ⟨mn, none⟩ op rfl] at h
    cases h
    exact ⟨rfl, rfl⟩
  | some w =>
    cases op <;>
      simp only [ShadowVm.step, queryDivergencePath, RefCell.take,
        VmWithReporting.report] at h <;>
      (try split at h) <;>
      (try split at h) <;>
      cases h <;>
      simp [mainStep]

/-- C1. Passthrough: over any operation sequence, the values a `ShadowVm` run
returns are exactly the values the primary engine alone would return (the
completed prefix when an operation panics, the whole sequence otherwise), and
when the run completes, the driver's primary component is in exactly the
state the primary alone would be in; the secondary's state and the comparison
outcomes never influence a returned value. -/
theorem passthrough {σ₁ σ₂ τ : Type} (E₁ : VmEngine σ₁ τ) (E₂ : VmEngine σ₂ Unit)
    (s : ShadowVm σ₁ σ₂) (ops : List (Op τ)) :
    (ShadowVm.run E₁ E₂ s ops).outputs
      = (mainRun E₁ s.main (ops.take (ShadowVm.run E₁ E₂ s ops).outputs.length)).2
    ∧ ∀ s', (ShadowVm.run E₁ E₂ s ops).final = some s' →
        (ShadowVm.run E₁ E₂ s ops).outputs = (mainRun E₁ s.main ops).2
        ∧ s'.main = (mainRun E₁ s.main ops).1 := by
  induction ops generalizing s with
  | nil =>
    refine ⟨rfl, ?_⟩
    intro s' hs'
    cases hs'
    exact ⟨rfl, rfl⟩
  | cons op ops ih =>
    rcases hstep : ShadowVm.step E₁ E₂ s op with ⟨s₁, v, tr⟩ | tr
    · have hmain := step_main_ok E₁ E₂ s op s₁ v tr hstep
      have e1 : (mainStep E₁ s.main op).1 = s₁.main := hmain.1.symm
      have e2 : (mainStep E₁ s.main op).2 = v := hmain.2.symm
      have hrun : ShadowVm.run E₁ E₂ s (op :: ops)
          = ⟨v :: (ShadowVm.run E₁ E₂ s₁ ops).outputs,
             tr :: (ShadowVm.run E₁ E₂ s₁ ops).traces,
             (ShadowVm.run E₁ E₂ s₁ ops).final⟩ := by
        simp [ShadowVm.run, hstep]
      obtain ⟨ih1, ih2⟩ := ih s₁
      rw [hrun]
      constructor
      · simp only [List.length_cons, List.take_succ_cons, mainRun, e1, e2]
        exact congrArg (v :: ·) ih1
      · intro s' hs'
        obtain ⟨h1, h2⟩ := ih2 s' hs'
        constructor
        · simp only [mainRun, e1, e2]
          exact congrArg (v :: ·) h1
        · simp only [mainRun, e1]
          exact h2
    · have hrun : ShadowVm.run E₁ E₂ s (op :: ops) = ⟨[], [tr], none⟩ := by
        simp [ShadowVm.run, hstep]
      rw [hrun]
      refine ⟨rfl, ?_⟩
      intro s' hs'
      cases hs'

theorem countDumpsEmitted_append (a b : List Event) :
    countDumpsEmitted (a ++ b) = countDumpsEmitted a + countDumpsEmitted b := by
  simp [countDumpsEmitted]

theorem countSecondaryCalls_append (a b : List Event) :
    countSecondaryCalls (a ++ b) = countSecondaryCalls a + countSecondaryCalls b := by
  simp [countSecondaryCalls]

theorem countCompares_append (a b : List Event) :
    countCompares (a ++ b) = countCompares a + countCompares b := by
  simp [countCompares]

/-- A retired driver run: the whole run completes, stays retired, and its
traces contain no secondary call, no comparison and no dump. -/
theorem run_of_retired {σ₁ σ₂ τ : Type} (E₁ : VmEngine σ₁ τ) (E₂ : VmEngine σ₂ Unit)
    (mn : σ₁) (ops : List (Op τ)) :
    (ShadowVm.run E₁ E₂ ⟨mn, none⟩ ops).final = some ⟨(mainRun E₁ mn ops).1, none⟩
    ∧ countSecondaryCalls (ShadowVm.run E₁ E₂ ⟨mn, none⟩ ops).traces.flatten = 0
    ∧ countCompares (ShadowVm.run E₁ E₂ ⟨mn, none⟩ ops).traces.flatten = 0
    ∧ countDumpsEmitted (ShadowVm.run E₁ E₂ ⟨mn, none⟩ ops).traces.flatten = 0 := by
  induction ops generalizing mn with
  | nil =>
    exact ⟨rfl, rfl, rfl, rfl⟩
  | cons op ops ih =>
    have hstep := step_of_retired E₁ E₂ ⟨mn, none⟩ op rfl
    have hrun : ShadowVm.run E₁ E₂ ⟨mn, none⟩ (op :: ops)
        = ⟨(mainStep E₁ mn op).2
              :: (ShadowVm.run E₁ E₂ ⟨(mainStep E₁ mn op).1, none⟩ ops).outputs,
           [Event.primaryCall (Op.down op)]
              :: (ShadowVm.run E₁ E₂ ⟨(mainStep E₁ mn op).1, none⟩ ops).traces,
           (ShadowVm.run E₁ E₂ ⟨(mainStep E₁ mn op).1, none⟩ ops).final⟩ := by
      simp [ShadowVm.run, hstep]
    obtain ⟨ih1, ih2, ih3, ih4⟩ := ih (mainStep E₁ mn op).1
    rw [hrun]
    refine ⟨?_, ?_, ?_, ?_⟩
    · simpa [mainRun] using ih1
    · simpa [List.flatten_cons, countSecondaryCalls_append, countSecondaryCalls, Event.kind]
        using ih2
    · simpa [List.flatten_cons, countCompares_append, countCompares, Event.kind] using ih3
    · simpa [List.flatten_cons, countDumpsEmitted_append, countDumpsEmitted, Event.kind]
        using ih4

/-- A completed driver operation emits at most one dump, and if it emits one
the shadow slot has been emptied. -/
theorem step_dump_ok {σ₁ σ₂ τ : Type} (E₁ : VmEngine σ₁ τ) (E₂ : VmEngine σ₂ Unit)
    (s : ShadowVm σ₁ σ₂) (op : Op τ) (s' : ShadowVm σ₁ σ₂) (v : RetVal)
    (tr : List Event) (h : ShadowVm.step E₁ E₂ s op = StepResult.ok s' v tr) :
    countDumpsEmitted tr ≤ 1 ∧ (countDumpsEmitted tr = 0 ∨ s'.shadow = none) := by
  obtain ⟨mn, sh⟩ := s
  cases sh with
  | none =>
    rw [step_of_retired E₁ E₂ ⟨mn, none⟩ op rfl] at h
    cases h
    simp [countDumpsEmitted, Event.kind]
  | some w =>
    cases op <;>
      simp only [ShadowVm.step, queryDivergencePath, RefCell.take,
        VmWithReporting.report] at h <;>
      (try split at h) <;>
      (try split at h) <;>
      cases h <;>
      simp [countDumpsEmitted, Event.kind]

/-- A panicking driver operation has emitted at most one dump. -/
theorem step_dump_panic {σ₁ σ₂ τ : Type} (E₁ : VmEngine σ₁ τ) (E₂ : VmEngine σ₂ Unit)
    (s : ShadowVm σ₁ σ₂) (op : Op τ) (tr : List Event)
    (h : ShadowVm.step E₁ E₂ s op = StepResult.panic tr) :
    countDumpsEmitted tr ≤ 1 := by
  obtain ⟨mn, sh⟩ := s
  cases sh with
  | none =>
    rw [step_of_retired E₁ E₂ ⟨mn, none⟩ op rfl] at h
    cases h
  | some w =>
    cases op <;>
      simp only [ShadowVm.step, queryDivergencePath, RefCell.take,
        VmWithReporting.report] at h <;>
      (try split at h) <;>
      (try split at h) <;>
      cases h <;>
      simp [countDumpsEmitted, Event.kind]

/-- C2. Single retirement: over any run of a `ShadowVm` instance at most one
divergence dump is ever emitted; and once the shadow slot is empty, the rest
of the run never invokes the secondary engine, never runs a comparison, never
dumps, and leaves the slot permanently empty. -/
theorem single_retirement {σ₁ σ₂ τ : Type} (E₁ : VmEngine σ₁ τ) (E₂ : VmEngine σ₂ Unit)
    (s : ShadowVm σ₁ σ₂) (ops : List (Op τ)) :
    countDumpsEmitted (ShadowVm.run E₁ E₂ s ops).traces.flatten ≤ 1
    ∧ (s.shadow = none →
        countSecondaryCalls (ShadowVm.run E₁ E₂ s ops).traces.flatten = 0
        ∧ countCompares (ShadowVm.run E₁ E₂ s ops).traces.flatten = 0
        ∧ countDumpsEmitted (ShadowVm.run E₁ E₂ s ops).traces.flatten = 0
        ∧ ∃ s', (ShadowVm.run E₁ E₂ s ops).final = some s' ∧ s'.shadow = none) := by
  constructor
  · induction ops generalizing s with
    | nil => simp [ShadowVm.run, countDumpsEmitted]
    | cons op ops ih =>
      rcases hstep : ShadowVm.step E₁ E₂ s op with ⟨s₁, v, tr⟩ | tr
      · have hrun : ShadowVm.run E₁ E₂ s (op :: ops)
            = ⟨v :: (ShadowVm.run E₁ E₂ s₁ ops).outputs,
               tr :: (ShadowVm.run E₁ E₂ s₁ ops).traces,
               (ShadowVm.run E₁ E₂ s₁ ops).final⟩ := by
          simp [ShadowVm.run, hstep]
        rw [hrun]
        have hfacts := step_dump_ok E₁ E₂ s op s₁ v tr hstep
        rcases hfacts.2 with hz | hnone
        · simpa [List.flatten_cons, countDumpsEmitted_append, hz] using ih s₁
        · obtain ⟨mn₁, sh₁⟩ := s₁
          simp only at hnone
          subst hnone
          have hret := (run_of_retired E₁ E₂ mn₁ ops).2.2.2
          simp only [List.flatten_cons, countDumpsEmitted_append, hret]
          simpa using hfacts.1
      · have hrun : ShadowVm.run E₁ E₂ s (op :: ops) = ⟨[], [tr], none⟩ := by
          simp [ShadowVm.run, hstep]
        rw [hrun]
        simpa [List.flatten_cons, countDumpsEmitted_append] using
          step_dump_panic E₁ E₂ s op tr hstep
  · intro h
    obtain ⟨mn, sh⟩ := s
    simp only at h
    subst h
    obtain ⟨h1, h2, h3, h4⟩ := run_of_retired E₁ E₂ mn ops
    exact ⟨h2, h3, h4, ⟨(mainRun E₁ mn ops).1, none⟩, h1, rfl⟩

/-! ## Claim C3: query-op divergence handling -/

/-- C3 (code evaluation at the failing input). With the secondary active,
`panic_on_divergence` set to `false`, the primary reporting 100 gas and the
secondary 99, `gas_remaining` panics with a `BorrowMutError` instead of
retiring the secondary and returning 100: `self.shadow.take()` calls
`RefCell::borrow_mut` while the `Ref` produced by the enclosing
`if let Some(shadow) = &*self.shadow.borrow()` is still live. The panic
happens before `report`, so no dump is emitted and the slot is not emptied. -/
theorem gas_remaining_divergence_panics :
    ShadowVm.step (constEngine 100) (constEngine 99)
        ((ShadowVm.new () () 0).set_panic_on_divergence false)
        (Op.gas_remaining : Op Unit)
      = StepResult.panic
          [.primaryCall .gas_remaining, .secondaryCall .gas_remaining, .compareRun] := by
  decide

/-! ## Claim C4: the ordering rule -/

/-- Per-operation trace discipline that does hold: dump updates happen before
the secondary is driven, and comparisons happen after both engines. -/
theorem step_trace_order {σ₁ σ₂ τ : Type} (E₁ : VmEngine σ₁ τ) (E₂ : VmEngine σ₂ Unit)
    (s : ShadowVm σ₁ σ₂) (op : Op τ) :
    dumpsPrecedeSecondaries (kindTrace (ShadowVm.step E₁ E₂ s op).trace) = true
    ∧ comparesAfterEngineCalls (kindTrace (ShadowVm.step E₁ E₂ s op).trace) = true := by
  obtain ⟨mn, sh⟩ := s
  cases sh with
  | none =>
    rw [step_of_retired E₁ E₂ ⟨mn, none⟩ op rfl]
    simp [StepResult.trace, kindTrace, Event.kind, dumpsPrecedeSecondaries,
      comparesAfterEngineCalls]
  | some w =>
    cases op <;>
      simp only [ShadowVm.step, queryDivergencePath, RefCell.take,
        VmWithReporting.report] <;>
      (try split) <;>
      (try split) <;>
      simp [StepResult.trace, kindTrace, Event.kind, dumpsPrecedeSecondaries,
        comparesAfterEngineCalls]

/-- C4 (counterexample). For `push_transaction` with the secondary active the
trace is: dump update, then the *secondary*, then the primary — the claimed
phase order (dump, primary, secondary, comparison) is violated. -/
theorem ordering_rule_cex :
    ¬ claimedPhaseOrder (ShadowVm.step (constEngine 0) (constEngine 0)
        (ShadowVm.new () () 0) (Op.push_transaction 5 : Op Unit)).trace := by
  decide

/-- C4 (amended). For every operation issued while the secondary is active,
any dump update with the operation's inputs happens before the secondary is
driven, and the comparison (when one occurs) runs after both engines have
been driven; but the primary is not always driven between the dump update
and the secondary: `push_transaction` and the snapshot ops drive the
secondary before the primary, and `start_new_l2_block` and the two
compression ops drive the primary before updating the dump. -/
theorem ordering_amended {σ₁ σ₂ τ : Type} (E₁ : VmEngine σ₁ τ) (E₂ : VmEngine σ₂ Unit)
    (s : ShadowVm σ₁ σ₂) (w : VmWithReporting σ₂) (op : Op τ)
    (_h : s.shadow = some w) :
    dumpsPrecedeSecondaries (kindTrace (ShadowVm.step E₁ E₂ s op).trace) = true
    ∧ comparesAfterEngineCalls (kindTrace (ShadowVm.step E₁ E₂ s op).trace) = true :=
  step_trace_order E₁ E₂ s op

/-- C4 (witness for the amended theorem), at `execute OneTx` on equal
engines. -/
theorem ordering_amended_witness :
    dumpsPrecedeSecondaries (kindTrace (ShadowVm.step (constEngine 0) (constEngine 0)
        (ShadowVm.new () () 0) (Op.execute VmExecutionMode.oneTx : Op Unit)).trace) = true
    ∧ comparesAfterEngineCalls (kindTrace (ShadowVm.step (constEngine 0) (constEngine 0)
        (ShadowVm.new () () 0) (Op.execute VmExecutionMode.oneTx : Op Unit)).trace) = true :=
  ordering_amended (constEngine 0) (constEngine 0) (ShadowVm.new () () 0) _
    (Op.execute VmExecutionMode.oneTx) rfl

/-! ## Claim C5: mirroring of operations onto the secondary -/

/-- C5 (counterexample). `record_vm_memory_metrics` is forwarded only to the
primary: with the secondary active it reaches the primary but not the
secondary, so not every operation applied to the primary is applied to an
active secondary. -/
theorem mirroring_cex :
    (ShadowVm.new () () 0 : ShadowVm Unit Unit).shadow.isSome = true
    ∧ primaryCalls (ShadowVm.step (constEngine 0) (constEngine 0) (ShadowVm.new () () 0)
        (Op.record_vm_memory_metrics : Op Unit)).trace
        = [DownOp.record_vm_memory_metrics]
    ∧ secondaryCalls (ShadowVm.step (constEngine 0) (constEngine 0) (ShadowVm.new () () 0)
        (Op.record_vm_memory_metrics : Op Unit)).trace = [] := by
  decide

/-- C5 (amended). Every driver operation except `record_vm_memory_metrics`,
issued while the secondary is active, is forwarded to the secondary exactly
once with the same (tracer-erased) arguments as to the primary, and in the
same per-operation order; `record_vm_memory_metrics` only reaches the
primary. (During a divergence report the primary is additionally queried for
its execution state, modelled by the separate `reportPrimaryState` event.) -/
theorem secondary_mirrors_primary {σ₁ σ₂ τ : Type} (E₁ : VmEngine σ₁ τ)
    (E₂ : VmEngine σ₂ Unit) (s : ShadowVm σ₁ σ₂) (w : VmWithReporting σ₂) (op : Op τ)
    (h : s.shadow = some w) (hop : op ≠ Op.record_vm_memory_metrics) :
    secondaryCalls (ShadowVm.step E₁ E₂ s op).trace = [Op.down op]
    ∧ primaryCalls (ShadowVm.step E₁ E₂ s op).trace = [Op.down op] := by
  obtain ⟨mn, sh⟩ := s
  simp only at h
  subst h
  cases op <;>
    first
    | exact absurd rfl hop
    | (simp only [ShadowVm.step, queryDivergencePath, RefCell.take,
          VmWithReporting.report]
       (try split) <;>
        (try split) <;>
        simp [StepResult.trace, secondaryCalls, primaryCalls, Op.down])

/-- C5 (witness for the amended theorem), at `push_transaction 3`. -/
theorem secondary_mirrors_primary_witness :
    secondaryCalls (ShadowVm.step (constEngine 0) (constEngine 0) (ShadowVm.new () () 0)
        (Op.push_transaction 3 : Op Unit)).trace = [Op.down (Op.push_transaction 3 : Op Unit)]
    ∧ primaryCalls (ShadowVm.step (constEngine 0) (constEngine 0) (ShadowVm.new () () 0)
        (Op.push_transaction 3 : Op Unit)).trace = [Op.down (Op.push_transaction 3 : Op Unit)] :=
  secondary_mirrors_primary (constEngine 0) (constEngine 0) (ShadowVm.new () () 0) _
    (Op.push_transaction 3) rfl (by decide)

/-! ## Claim C9: dump ordering -/

/-- A completed operation that keeps the secondary active appends exactly the
operation's transaction/block inputs to the partial dump, in order. -/
theorem step_dump_blocks {σ₁ σ₂ τ : Type} (E₁ : VmEngine σ₁ τ) (E₂ : VmEngine σ₂ Unit)
    (s : ShadowVm σ₁ σ₂) (op : Op τ) (s' : ShadowVm σ₁ σ₂) (v : RetVal)
    (tr : List Event) (w w' : VmWithReporting σ₂)
    (h : ShadowVm.step E₁ E₂ s op = StepResult.ok s' v tr)
    (h0 : s.shadow = some w) (h1 : s'.shadow = some w') :
    w'.partial_dump.blocks_and_transactions
      = w.partial_dump.blocks_and_transactions ++ Op.dumpInputs op := by
  obtain ⟨mn, sh⟩ := s
  simp only at h0
  subst h0
  cases op <;>
    simp only [ShadowVm.step, queryDivergencePath, RefCell.take,
      VmWithReporting.report, VmStateDump.push_transaction] at h <;>
    (try split at h) <;>
    (try split at h) <;>
    cases h <;>
    simp only at h1 <;>
    cases h1 <;>
    simp [Op.dumpInputs, VmStateDump.push_transaction]

/-- Every per-operation trace of a run appends dump entries only before
driving the secondary. -/
theorem run_traces_order {σ₁ σ₂ τ : Type} (E₁ : VmEngine σ₁ τ) (E₂ : VmEngine σ₂ Unit)
    (s : ShadowVm σ₁ σ₂) (ops : List (Op τ)) :
    ∀ tr ∈ (ShadowVm.run E₁ E₂ s ops).traces,
      dumpsPrecedeSecondaries (kindTrace tr) = true := by
  induction ops generalizing s with
  | nil =>
    intro tr htr
    simp [ShadowVm.run] at htr
  | cons op ops ih =>
    intro tr' htr'
    rcases hstep : ShadowVm.step E₁ E₂ s op with ⟨s₁, v, tr⟩ | tr
    · have hrun : ShadowVm.run E₁ E₂ s (op :: ops)
          = ⟨v :: (ShadowVm.run E₁ E₂ s₁ ops).outputs,
             tr :: (ShadowVm.run E₁ E₂ s₁ ops).traces,
             (ShadowVm.run E₁ E₂ s₁ ops).final⟩ := by
        simp [ShadowVm.run, hstep]
      rw [hrun] at htr'
      rcases List.mem_cons.mp htr' with rfl | htr'
      · have := (step_trace_order E₁ E₂ s op).1
        rwa [hstep] at this
      · exact ih s₁ tr' htr'
    · have hrun : ShadowVm.run E₁ E₂ s (op :: ops) = ⟨[], [tr], none⟩ := by
        simp [ShadowVm.run, hstep]
      rw [hrun] at htr'
      rcases List.mem_cons.mp htr' with rfl | htr'
      · have := (step_trace_order E₁ E₂ s op).1
        rwa [hstep] at this
      · simp at htr'

/-- C9. Dump ordering: over any run that keeps the secondary active, the
`blocks_and_transactions` sequence of the partial dump grows by exactly the
ordered sequence of transactions and block environments the operations
carried; and within every operation's trace, each dump entry is appended
before anything is forwarded to the secondary. -/
theorem dump_ordering {σ₁ σ₂ τ : Type} (E₁ : VmEngine σ₁ τ) (E₂ : VmEngine σ₂ Unit)
    (s : ShadowVm σ₁ σ₂) (ops : List (Op τ)) (w : VmWithReporting σ₂)
    (s' : ShadowVm σ₁ σ₂) (w' : VmWithReporting σ₂)
    (h0 : s.shadow = some w)
    (hf : (ShadowVm.run E₁ E₂ s ops).final = some s')
    (hw' : s'.shadow = some w') :
    w'.partial_dump.blocks_and_transactions
      = w.partial_dump.blocks_and_transactions ++ ops.flatMap Op.dumpInputs
    ∧ ∀ tr ∈ (ShadowVm.run E₁ E₂ s ops).traces,
        dumpsPrecedeSecondaries (kindTrace tr) = true := by
  refine ⟨?_, run_traces_order E₁ E₂ s ops⟩
  induction ops generalizing s w with
  | nil =>
    simp only [ShadowVm.run] at hf
    cases hf
    rw [h0] at hw'
    cases hw'
    simp
  | cons op ops ih =>
    rcases hstep : ShadowVm.step E₁ E₂ s op with ⟨s₁, v, tr⟩ | tr
    · have hrun : ShadowVm.run E₁ E₂ s (op :: ops)
          = ⟨v :: (ShadowVm.run E₁ E₂ s₁ ops).outputs,
             tr :: (ShadowVm.run E₁ E₂ s₁ ops).traces,
             (ShadowVm.run E₁ E₂ s₁ ops).final⟩ := by
        simp [ShadowVm.run, hstep]
      rw [hrun] at hf
      rcases hsh : s₁.shadow with _ | w₁
      · exfalso
        obtain ⟨mn₁, sh₁⟩ := s₁
        simp only at hsh
        subst hsh
        have hret := (run_of_retired E₁ E₂ mn₁ ops).1
        rw [hf] at hret
        cases hret
        simp at hw'
      · have hd := step_dump_blocks E₁ E₂ s op s₁ v tr w w₁ hstep h0 hsh
        have hrest := ih s₁ w₁ hsh hf
        rw [hrest, hd, List.flatMap_cons, List.append_assoc]
    · have hrun : ShadowVm.run E₁ E₂ s (op :: ops) = ⟨[], [tr], none⟩ := by
        simp [ShadowVm.run, hstep]
      rw [hrun] at hf
      cases hf

def wInit : VmWithReporting Unit :=
  { vm := ()
    partial_dump := { batch_number := 0, blocks_and_transactions := [] }
    dumps_directory := none
    panic_on_divergence := true }

def wAfter : VmWithReporting Unit :=
  { wInit with partial_dump := { batch_number := 0, blocks_and_transactions :=
      [BlockOrTransaction.transaction 1, BlockOrTransaction.block 2] } }

/-- C9 (witness): pushing transaction `1` and starting block `2` on equal
engines records `[transaction 1, block 2]` in the partial dump, each entry
appended before the secondary sees the input. -/
theorem dump_ordering_witness :
    wAfter.partial_dump.blocks_and_transactions
      = wInit.partial_dump.blocks_and_transactions
        ++ ([Op.push_transaction 1, Op.start_new_l2_block 2]
            : List (Op Unit)).flatMap Op.dumpInputs
    ∧ ∀ tr ∈ (ShadowVm.run (constEngine 0) (constEngine 0) (ShadowVm.new () () 0)
        [Op.push_transaction 1, Op.start_new_l2_block 2]).traces,
        dumpsPrecedeSecondaries (kindTrace tr) = true :=
  dump_ordering (constEngine 0) (constEngine 0) (ShadowVm.new () () 0)
    [Op.push_transaction 1, Op.start_new_l2_block 2]
    wInit ⟨(), some wAfter⟩ wAfter rfl (by decide) rfl
